import Mathlib

/-
Shallow embedding of the Knowledge-Graph backend (src/backend/ernie.py,
src/backend/graph.py).  Python strings are modelled as `List Char`; Python
`None`-able values as `Option`; the external ERNIE call as an oracle
parameter; the Neo4j store as an association list from database name to
content.  Machine-level caveats are noted at each definition.
-/

/-- Python `str.isspace` restricted to the ASCII whitespace characters
(space, tab, newline, carriage return, vertical tab, form feed).  The
repository only ever feeds ASCII-ish text through these paths. -/
def pySpace (c : Char) : Bool :=
  c = ' ' || c = '\t' || c = '\n' || c = '\r' || c = '\x0b' || c = '\x0c'

/-- Python `s.rfind(ch)` on a window, as the greatest index of `ch` in the
list (`none` for Python `-1`). -/
def rfindChar (ch : Char) : List Char → Option Nat
  | [] => none
  | c :: rest =>
    match rfindChar ch rest with
    | some w => some (w + 1)
    | none => if c = ch then some 0 else none

/-- The cut position chosen by one iteration of the `while` loop of
`_chunk_text` (src/backend/ernie.py lines 32-40), relative to the current
offset `i`: `end := min(i+max_len, n)`; if `end < n` and the character at
`end-1` is not whitespace, backtrack to `ws+1` where `ws = rfind(" ", i, end)`
provided `ws != -1 and ws > i`. -/
def cutLen (max_len : Nat) (t : List Char) : Nat :=
  if min max_len t.length < t.length && !(pySpace (t.getD (min max_len t.length - 1) ' ')) then
    match rfindChar ' ' (t.take (min max_len t.length)) with
    | some w => if 0 < w then w + 1 else min max_len t.length
    | none => min max_len t.length
  else min max_len t.length

/-- The loop of `_chunk_text`, with explicit fuel.  Each iteration yields
`text[i:end]` and continues from `end`; here the slice is `t.take (cutLen ..)`
and the continuation runs on `t.drop (cutLen ..)`.  For `max_len = 0` the
Python loop never advances (it diverges); fuel `t.length` is enough for every
`max_len ≥ 1`, which is the domain of all theorems below. -/
def chunkTextAux (max_len : Nat) : Nat → List Char → List (List Char)
  | 0, _ => []
  | fuel + 1, t =>
    if t = [] then []
    else t.take (cutLen max_len t) :: chunkTextAux max_len fuel (t.drop (cutLen max_len t))

/-- Model of `_chunk_text` (src/backend/ernie.py lines 24-40).  The `if not text:
return` guard is the `t = []` case of the auxiliary loop. -/
def _chunk_text (text : List Char) (max_len : Nat) : List (List Char) :=
  chunkTextAux max_len text.length text

theorem rfindChar_lt_length {ch : Char} : ∀ {l : List Char} {w : Nat},
    rfindChar ch l = some w → w < l.length := by
  intro l
  induction l with
  | nil => intro w h; simp [rfindChar] at h
  | cons c rest ih =>
    intro w h
    simp only [rfindChar] at h
    cases hr : rfindChar ch rest with
    | some w0 =>
      rw [hr] at h
      cases h
      have := ih hr
      simp only [List.length_cons]
      omega
    | none =>
      rw [hr] at h
      by_cases hc : c = ch
      · simp [hc] at h
        simp only [List.length_cons]
        omega
      · simp [hc] at h

theorem cutLen_le (max_len : Nat) (t : List Char) : cutLen max_len t ≤ max_len := by
  have h1 : min max_len t.length ≤ max_len := Nat.min_le_left _ _
  unfold cutLen
  split
  · split
    next w hr =>
      have hw := rfindChar_lt_length hr
      have h2 : min (min max_len t.length) t.length ≤ min max_len t.length :=
        Nat.min_le_left _ _
      simp only [List.length_take] at hw
      split <;> omega
    next => omega
  · omega

theorem cutLen_pos (max_len : Nat) (t : List Char) (ht : t ≠ []) (hm : 0 < max_len) :
    0 < cutLen max_len t := by
  have hn : 0 < t.length := List.length_pos.mpr ht
  have h1 : 0 < min max_len t.length := lt_min hm hn
  unfold cutLen
  split
  · split
    next w hr => split <;> omega
    next => omega
  · omega

theorem chunkTextAux_flatten (max_len : Nat) (hm : 0 < max_len) :
    ∀ fuel t, t.length ≤ fuel → (chunkTextAux max_len fuel t).flatten = t := by
  intro fuel
  induction fuel with
  | zero =>
    intro t ht
    have : t = [] := List.eq_nil_of_length_eq_zero (Nat.le_zero.mp ht)
    simp [this, chunkTextAux]
  | succ n ih =>
    intro t ht
    by_cases he : t = []
    · simp [he, chunkTextAux]
    · have hpos := cutLen_pos max_len t he hm
      have hlen : (t.drop (cutLen max_len t)).length ≤ n := by
        rw [List.length_drop]
        have : 0 < t.length := List.length_pos.mpr he
        omega
      simp only [chunkTextAux, he, if_false, List.flatten_cons]
      rw [ih _ hlen, List.take_append_drop]

theorem chunkTextAux_mem (max_len : Nat) (hm : 0 < max_len) :
    ∀ fuel t, t.length ≤ fuel →
      ∀ c ∈ chunkTextAux max_len fuel t, c ≠ [] ∧ c.length ≤ max_len := by
  intro fuel
  induction fuel with
  | zero =>
    intro t ht c hc
    have : t = [] := List.eq_nil_of_length_eq_zero (Nat.le_zero.mp ht)
    simp [this, chunkTextAux] at hc
  | succ n ih =>
    intro t ht c hc
    by_cases he : t = []
    · simp [he, chunkTextAux] at hc
    · simp only [chunkTextAux, he, if_false, List.mem_cons] at hc
      rcases hc with hc | hc
      · subst hc
        have hpos := cutLen_pos max_len t he hm
        have hn : 0 < t.length := List.length_pos.mpr he
        constructor
        · have hlp : 0 < (t.take (cutLen max_len t)).length := by
            rw [List.length_take]
            exact lt_min hpos hn
          exact List.length_pos.mp hlp
        · have := cutLen_le max_len t
          rw [List.length_take]
          have h2 : min (cutLen max_len t) t.length ≤ cutLen max_len t :=
            Nat.min_le_left _ _
          omega
      · have hpos := cutLen_pos max_len t he hm
        have hn : 0 < t.length := List.length_pos.mpr he
        have hlen : (t.drop (cutLen max_len t)).length ≤ n := by
          rw [List.length_drop]
          omega
        exact ih _ hlen c hc

/-- Claim C1: for every text `T` and every `maxLen L > 0`, the chunks of
`_chunk_text(T, L)` are non-empty, each has length at most `L`, their
in-order concatenation reproduces `T` exactly, and the empty input yields
an empty sequence. -/
theorem chunk_text_spec (t : List Char) (L : Nat) (hL : 0 < L) :
    (_chunk_text t L).flatten = t ∧
    (∀ c ∈ _chunk_text t L, c ≠ [] ∧ c.length ≤ L) ∧
    _chunk_text [] L = [] := by
  refine ⟨chunkTextAux_flatten L hL t.length t le_rfl, chunkTextAux_mem L hL t.length t le_rfl, ?_⟩
  simp [_chunk_text, chunkTextAux]

/-- Witness for C1 at the concrete text `"ab cd"` with `L = 4`. -/
theorem chunk_text_spec_witness :
    (0 < 4 ∧ (_chunk_text [ 'a', 'b', ' ', 'c', 'd'] 4).flatten = [ 'a', 'b', ' ', 'c', 'd']) ∧
    _chunk_text [ 'a', 'b', ' ', 'c', 'd'] 4 = [[ 'a', 'b', ' '], [ 'c', 'd']] :=
  ⟨⟨by decide, (chunk_text_spec [ 'a', 'b', ' ', 'c', 'd'] 4 (by decide)).1⟩, by decide⟩

theorem rfindChar_found {ch : Char} : ∀ {l : List Char} {w : Nat},
    rfindChar ch l = some w → l[w]? = some ch := by
  intro l
  induction l with
  | nil => intro w h; simp [rfindChar] at h
  | cons c rest ih =>
    intro w h
    simp only [rfindChar] at h
    cases hr : rfindChar ch rest with
    | some w0 =>
      rw [hr] at h
      cases h
      rw [List.getElem?_cons_succ]
      exact ih hr
    | none =>
      rw [hr] at h
      by_cases hc : c = ch
      · simp [hc] at h
        subst h
        simp [hc]
      · simp [hc] at h

theorem rfindChar_none {ch : Char} : ∀ {l : List Char},
    rfindChar ch l = none → ∀ j : Nat, l[j]? ≠ some ch := by
  intro l
  induction l with
  | nil => intro h j; simp
  | cons c rest ih =>
    intro h j
    simp only [rfindChar] at h
    cases hr : rfindChar ch rest with
    | some w0 => rw [hr] at h; simp at h
    | none =>
      rw [hr] at h
      by_cases hc : c = ch
      · simp [hc] at h
      · cases j with
        | zero =>
          rw [List.getElem?_cons_zero]
          intro hcon
          exact hc (Option.some.inj hcon)
        | succ j0 =>
          rw [List.getElem?_cons_succ]
          exact ih hr j0

theorem rfindChar_after {ch : Char} : ∀ {l : List Char} {w : Nat},
    rfindChar ch l = some w → ∀ j : Nat, w < j → l[j]? ≠ some ch := by
  intro l
  induction l with
  | nil => intro w h; simp [rfindChar] at h
  | cons c rest ih =>
    intro w h j hwj
    simp only [rfindChar] at h
    cases hr : rfindChar ch rest with
    | some w0 =>
      rw [hr] at h
      cases h
      cases j with
      | zero => omega
      | succ j0 =>
        rw [List.getElem?_cons_succ]
        exact ih hr j0 (by omega)
    | none =>
      rw [hr] at h
      by_cases hc : c = ch
      · simp [hc] at h
        subst h
        cases j with
        | zero => omega
        | succ j0 =>
          rw [List.getElem?_cons_succ]
          exact rfindChar_none hr j0
      · simp [hc] at h

theorem chunkTextAux_nil (max_len : Nat) : ∀ fuel, chunkTextAux max_len fuel [] = [] := by
  intro fuel
  cases fuel <;> simp [chunkTextAux]

/-- Claim C9 counterexample: on the text `"ab\tcdef"` with `maxLen = 5`, the
window `"ab\tcd"` contains a whitespace character (the tab), yet the chunker
cuts at `maxLen` verbatim, splitting the word `"cdef"` between the
non-whitespace characters `d` and `e`.  The backtracking search only looks
for the space character, not arbitrary whitespace. -/
theorem chunk_text_midword_cex :
    _chunk_text [ 'a', 'b', '\t', 'c', 'd', 'e', 'f'] 5 =
      [[ 'a', 'b', '\t', 'c', 'd'], [ 'e', 'f']] ∧
    '\t' ∈ [ 'a', 'b', '\t', 'c', 'd'] ∧
    pySpace '\t' = true ∧ pySpace 'd' = false ∧ pySpace 'e' = false := by
  decide

theorem chunkTextAux_cut (L : Nat) (hL : 0 < L) :
    ∀ fuel t, t.length ≤ fuel →
    ∀ k, k + 1 < (chunkTextAux L fuel t).length →
    (∃ a, ((chunkTextAux L fuel t).getD k []).getLast? = some a ∧ pySpace a = false) →
    ∀ j, j < (((chunkTextAux L fuel t).drop k).flatten.take L).length → 0 < j →
      (((chunkTextAux L fuel t).drop k).flatten.take L).getD j ' ' ≠ ' ' := by
  intro fuel
  induction fuel with
  | zero =>
    intro t ht k hk
    have : t = [] := List.eq_nil_of_length_eq_zero (Nat.le_zero.mp ht)
    subst this
    simp [chunkTextAux] at hk
  | succ n ih =>
    intro t ht k hk h1 j hj hj0
    by_cases he : t = []
    · subst he
      simp [chunkTextAux] at hk
    · have hn : 0 < t.length := List.length_pos.mpr he
      simp only [chunkTextAux, he, if_false] at hk h1 hj ⊢
      cases k with
      | succ k0 =>
        simp only [List.length_cons] at hk
        simp only [List.getD_cons_succ] at h1
        simp only [List.drop_succ_cons] at hj ⊢
        have hlen : (t.drop (cutLen L t)).length ≤ n := by
          have := cutLen_pos L t he hL
          rw [List.length_drop]
          omega
        exact ih _ hlen k0 (by omega) h1 j hj hj0
      | zero =>
        simp only [List.getD_cons_zero] at h1
        simp only [List.drop_zero] at hj ⊢
        have hflat : (t.take (cutLen L t) :: chunkTextAux L n (t.drop (cutLen L t))).flatten = t := by
          have hlen : (t.drop (cutLen L t)).length ≤ n := by
            have := cutLen_pos L t he hL
            rw [List.length_drop]
            omega
          simp only [List.flatten_cons]
          rw [chunkTextAux_flatten L hL n _ hlen, List.take_append_drop]
        rw [hflat] at hj ⊢
        rcases h1 with ⟨a, hlast, hsp⟩
        -- case analysis on the branch taken by cutLen
        by_cases hA : min L t.length < t.length
        · have heL : min L t.length = L := by
            rcases Nat.lt_or_ge L t.length with hc | hc
            · exact Nat.min_eq_left (Nat.le_of_lt hc)
            · have : min L t.length = t.length := Nat.min_eq_right hc
              omega
          have hminpos : 0 < min L t.length := lt_min hL hn
          have hlen2 : (t.take (min L t.length)).length = min L t.length := by
            rw [List.length_take]
            exact Nat.min_eq_left (Nat.min_le_right _ _)
          by_cases hB : pySpace (t.getD (min L t.length - 1) ' ') = true
          · -- window ends in whitespace: the last char of the chunk is that
            -- whitespace character, contradicting hsp
            exfalso
            have hcl : cutLen L t = min L t.length := by
              unfold cutLen
              rw [hB]
              simp
            rw [hcl] at hlast
            rw [List.getLast?_eq_getElem?, hlen2] at hlast
            rw [List.getElem?_take] at hlast
            rw [if_pos (by omega)] at hlast
            rw [List.getD_eq_getElem?_getD, hlast] at hB
            simp only [Option.getD_some] at hB
            rw [hB] at hsp
            simp at hsp
          · -- window end is not whitespace: the rfind(" ") branch decides
            have hBf : pySpace (t.getD (min L t.length - 1) ' ') = false := by
              revert hB
              cases pySpace (t.getD (min L t.length - 1) ' ') <;> simp
            cases hr : rfindChar ' ' (t.take (min L t.length)) with
            | some w =>
              have hwlt : w < (t.take (min L t.length)).length := rfindChar_lt_length hr
              by_cases hw0 : 0 < w
              · -- cut just after a space: last char of the chunk is a space,
                -- contradicting hsp
                exfalso
                have hcl : cutLen L t = w + 1 := by
                  unfold cutLen
                  rw [hBf, hr]
                  simp [hA, hw0]
                have hfound := rfindChar_found hr
                rw [List.getElem?_take, if_pos (by omega)] at hfound
                rw [hcl] at hlast
                have hwt : w < t.length := by omega
                have hlen3 : (t.take (w + 1)).length = w + 1 := by
                  rw [List.length_take]
                  exact Nat.min_eq_left hwt
                rw [List.getLast?_eq_getElem?, hlen3] at hlast
                simp only [Nat.add_sub_cancel] at hlast
                rw [List.getElem?_take, if_pos (by omega)] at hlast
                rw [hfound] at hlast
                have : a = ' ' := (Option.some.inj hlast).symm
                rw [this] at hsp
                simp [pySpace] at hsp
              · -- the only space sits at the window start: verbatim cut, and
                -- no space occurs at any positive offset of the window
                have hw : w = 0 := by omega
                subst hw
                intro hcontra
                rw [← heL] at hj hcontra
                have hjw : j < (t.take (min L t.length)).length := hj
                have hsome : (t.take (min L t.length))[j]? = some ' ' := by
                  rw [List.getElem?_eq_getElem hjw]
                  rw [List.getD_eq_getElem _ ' ' hjw] at hcontra
                  rw [hcontra]
                exact rfindChar_after hr j hj0 hsome
            | none =>
              -- no space anywhere in the window: verbatim cut
              intro hcontra
              rw [← heL] at hj hcontra
              have hjw : j < (t.take (min L t.length)).length := hj
              have hsome : (t.take (min L t.length))[j]? = some ' ' := by
                rw [List.getElem?_eq_getElem hjw]
                rw [List.getD_eq_getElem _ ' ' hjw] at hcontra
                rw [hcontra]
              exact rfindChar_none hr j hsome
        · -- the window reaches the end of the text: this chunk is the last
          -- one, contradicting k + 1 < length
          exfalso
          have heq : min L t.length = t.length := by
            have := Nat.min_le_right L t.length
            omega
          have hcl : cutLen L t = t.length := by
            unfold cutLen
            simp only [hA]
            simp [heq]
          rw [hcl, List.drop_length, chunkTextAux_nil] at hk
          simp at hk

/-- Claim C9 amended: whenever a chunk boundary is a mid-word cut (the chunk
ends in a non-whitespace character), the window it was cut from contains no
space character at any position after the window start.  (The source
backtracks only to a literal space, and only when that space lies strictly
after the window start; other whitespace such as tabs, or a space at the
window start itself, still yields a verbatim cut at `maxLen`.) -/
theorem chunk_text_cut_spec (t : List Char) (L : Nat) (hL : 0 < L) (k : Nat)
    (hk : k + 1 < (_chunk_text t L).length)
    (h1 : ∃ a, ((_chunk_text t L).getD k []).getLast? = some a ∧ pySpace a = false) :
    ∀ j, j < (((_chunk_text t L).drop k).flatten.take L).length → 0 < j →
      (((_chunk_text t L).drop k).flatten.take L).getD j ' ' ≠ ' ' :=
  chunkTextAux_cut L hL t.length t le_rfl k hk h1

/-- Witness for the amended C9: the text `" abcde"` with `L = 4` cuts
verbatim into `" abc"` and `"de"` (a mid-word cut, the only space being at
the window start), and indeed no space occurs after position 0 of the
window. -/
theorem chunk_text_cut_spec_witness :
    (0 < 4 ∧ 1 < (_chunk_text [ ' ', 'a', 'b', 'c', 'd', 'e'] 4).length ∧
      _chunk_text [ ' ', 'a', 'b', 'c', 'd', 'e'] 4 = [[ ' ', 'a', 'b', 'c'], [ 'd', 'e']]) ∧
    (∀ j, j < ((((_chunk_text [ ' ', 'a', 'b', 'c', 'd', 'e'] 4).drop 0).flatten).take 4).length →
      0 < j →
      ((((_chunk_text [ ' ', 'a', 'b', 'c', 'd', 'e'] 4).drop 0).flatten).take 4).getD j ' ' ≠ ' ') :=
  ⟨⟨by decide, by decide, by decide⟩,
    chunk_text_cut_spec [ ' ', 'a', 'b', 'c', 'd', 'e'] 4 (by decide) 0 (by decide)
      ⟨'c', by decide, by decide⟩⟩

/-- Python truthiness of an optional string (`None` and `""` are falsy). -/
def truthy (o : Option (List Char)) : Bool :=
  match o with
  | none => false
  | some s => !s.isEmpty

/-- Python `a or b` on optional strings: `b` when `a` is falsy. -/
def pyOr (a b : Option (List Char)) : Option (List Char) :=
  if truthy a then a else b

/-- Python `str(x)` on an optional string: `str(None)` is the four-character
string `"None"`. -/
def pyStr (o : Option (List Char)) : List Char :=
  match o with
  | none => [ 'N', 'o', 'n', 'e']
  | some s => s

/-- Python `str.strip()` restricted to ASCII whitespace. -/
def pyStrip (l : List Char) : List Char :=
  ((l.dropWhile pySpace).reverse.dropWhile pySpace).reverse

/-- Python `str.lower()` restricted to ASCII case mapping (the repository
feeds model output through this; only ASCII matters for the claims). -/
def pyLower (l : List Char) : List Char :=
  l.map Char.toLower

/-- Model of `_normalize_key` (src/backend/ernie.py lines 42-43):
`(s or "").strip().lower()`. -/
def _normalize_key (s : Option (List Char)) : List Char :=
  pyLower (pyStrip (if truthy s then s.getD [] else []))

/-- Decimal digit characters, as produced by Python string formatting. -/
def digitChar (n : Nat) : Char :=
  match n with
  | 0 => '0'
  | 1 => '1'
  | 2 => '2'
  | 3 => '3'
  | 4 => '4'
  | 5 => '5'
  | 6 => '6'
  | 7 => '7'
  | 8 => '8'
  | 9 => '9'
  | _ => '*'

/-- Decimal digits with explicit fuel (structural, so that the kernel can
evaluate it); `natCharsAux_val` below shows fuel `n` always suffices. -/
def natCharsAux : Nat → Nat → List Char
  | 0, n => [digitChar n]
  | fuel + 1, n =>
    if n < 10 then [digitChar n]
    else natCharsAux fuel (n / 10) ++ [digitChar (n % 10)]

/-- Decimal representation of a natural number, as Python `f"{n}"`. -/
def natChars (n : Nat) : List Char :=
  natCharsAux n n

/-- An entity object of a per-chunk extraction result
(`{"id", "type", "text", "canonical"}`); every field may be missing (or
JSON `null`, which `dict.get` treats the same for the claims at hand). -/
structure EEntity where
  id : Option (List Char)
  etype : Option (List Char)
  text : Option (List Char)
  canonical : Option (List Char)
deriving DecidableEq

/-- A relation object of a per-chunk extraction result
(`{"from", "to", "type", "confidence", "evidence_span"}`). -/
structure ERelation where
  fromId : Option (List Char)
  toId : Option (List Char)
  rtype : Option (List Char)
  confidence : Option ℚ
  evidence_span : Option (List Char)
deriving DecidableEq

/-- One per-chunk extraction result (`{"title", "entities", "relations"}`). -/
structure ChunkResult where
  title : Option (List Char)
  entities : List EEntity
  relations : List ERelation
deriving DecidableEq

/-- A merged (global) entity as appended to `combined_entities`
(src/backend/ernie.py lines 185-190). -/
structure GEntity where
  id : List Char
  etype : List Char
  text : List Char
  canonical : List Char
deriving DecidableEq

/-- A merged relation as appended to `combined_relations`
(src/backend/ernie.py lines 200-206). -/
structure GRelation where
  fromId : List Char
  toId : List Char
  rtype : List Char
  confidence : ℚ
  evidence_span : List Char
deriving DecidableEq

/-- Association-list lookup with string keys (Python `dict` read). -/
def alookup {α : Type} : List (List Char × α) → List Char → Option α
  | [], _ => none
  | (k, v) :: rest, key => if k = key then some v else alookup rest key

/-- The mutable state of the merge loop of `extract_entities_chunked`
(src/backend/ernie.py lines 157-160).  Dict writes are modelled by consing,
so `alookup` sees the most recent binding, matching Python assignment. -/
structure MergeState where
  combined_entities : List GEntity
  combined_relations : List GRelation
  canonical_to_id : List (List Char × List Char)
  first_title : Option (List Char)
deriving DecidableEq

def initMergeState : MergeState := ⟨[], [], [], none⟩

/-- The canonical key of an entity:
`_normalize_key(e.get("canonical") or e.get("text") or e.get("id"))`. -/
def entityKey (e : EEntity) : List Char :=
  _normalize_key (pyOr e.canonical (pyOr e.text e.id))

/-- The global id minted for chunk `chunk_idx` and base local id `b`:
Python `f"c{chunk_idx}_{b}"`. -/
def mintId (chunk_idx : Nat) (b : List Char) : List Char :=
  'c' :: (natChars chunk_idx ++ '_' :: b)

/-- Model of `base_local_id = str(e.get("id") or f"E{len(combined_entities)+1}")`
(src/backend/ernie.py line 182). -/
def baseLocal (st : MergeState) (e : EEntity) : List Char :=
  if truthy e.id then e.id.getD []
  else 'E' :: natChars (st.combined_entities.length + 1)

/-- The global entity appended on first occurrence of a canonical key
(src/backend/ernie.py lines 185-190). -/
def mintedEntity (chunk_idx : Nat) (st : MergeState) (e : EEntity) : GEntity :=
  ⟨mintId chunk_idx (baseLocal st e),
    e.etype.getD [], e.text.getD [], e.canonical.getD (e.text.getD [])⟩

/-- The body of the `for e in entities` loop of `extract_entities_chunked`
(src/backend/ernie.py lines 175-191), acting on the merge state and the
chunk-local `local_to_combined` map. -/
def stepEntity (chunk_idx : Nat) (a : MergeState × List (List Char × List Char))
    (e : EEntity) : MergeState × List (List Char × List Char) :=
  if entityKey e = [] then a
  else
    match alookup a.1.canonical_to_id (entityKey e) with
    | some cid => (a.1, (pyStr e.id, cid) :: a.2)
    | none =>
      ({ a.1 with
          canonical_to_id :=
            (entityKey e, (mintedEntity chunk_idx a.1 e).id) :: a.1.canonical_to_id,
          combined_entities := a.1.combined_entities ++ [mintedEntity chunk_idx a.1 e] },
        (pyStr e.id, (mintedEntity chunk_idx a.1 e).id) :: a.2)

/-- The body of the `for r in relations` loop of `extract_entities_chunked`
(src/backend/ernie.py lines 193-206). -/
def stepRelation (lm : List (List Char × List Char)) (st : MergeState)
    (r : ERelation) : MergeState :=
  let src_id := alookup lm (pyStr r.fromId)
  let dst_id := alookup lm (pyStr r.toId)
  if truthy src_id && truthy dst_id then
    { st with
        combined_relations := st.combined_relations ++
          [⟨src_id.getD [], dst_id.getD [],
            r.rtype.getD [ 'r', 'e', 'l', 'a', 't', 'e', 'd'],
            r.confidence.getD 0, r.evidence_span.getD []⟩] }
  else st

/-- Processing of one chunk result inside the loop of
`extract_entities_chunked` (src/backend/ernie.py lines 168-206): record the
first truthy title, fold the entities building `local_to_combined`, then
fold the relations. -/
def processChunk (chunk_idx : Nat) (st : MergeState) (res : ChunkResult) : MergeState :=
  let st0 := { st with first_title := if truthy st.first_title then st.first_title else res.title }
  let p := res.entities.foldl (stepEntity chunk_idx) (st0, [])
  res.relations.foldl (stepRelation p.2) p.1

/-- The final dict returned by `extract_entities_chunked`
(src/backend/ernie.py lines 208-212). -/
structure Output where
  title : List Char
  entities : List GEntity
  relations : List GRelation
deriving DecidableEq

def finalizeOut (st : MergeState) : Output :=
  ⟨if truthy st.first_title then st.first_title.getD [] else [ 'g', 'r', 'a', 'p', 'h'],
    st.combined_entities, st.combined_relations⟩

def mergeAux : Nat → MergeState → List ChunkResult → MergeState
  | _, st, [] => st
  | i, st, cr :: rest => mergeAux (i + 1) (processChunk i st cr) rest

/-- The merge half of `extract_entities_chunked`, as a pure function of the
ordered sequence of per-chunk extraction results (the chunk index is the
position in the sequence, matching `enumerate`). -/
def mergeResults (rs : List ChunkResult) : Output :=
  finalizeOut (mergeAux 0 initMergeState rs)

/-- The fixed fragment of the prompt of `_build_prompt`
(src/backend/ernie.py lines 59-67) that precedes the spliced text
(braces written as hex escapes). -/
def promptHead : String :=
  "Extract entities and relations from the text and return ONLY JSON:\n\x7b\n\"title\": \"...\",\n\"entities\": [\x7b\"id\":\"E1\",\"type\":\"Organization|Person|Date|Money|Clause|Term|...\",\"text\":\"...\",\"canonical\":\"...\"\x7d ],\n\"relations\": [\x7b\"from\":\"E1\",\"to\":\"E2\",\"type\":\"employs|owes|mentions|amends|...\",\"confidence\":0.0,\"evidence_span\":\"...\"\x7d ],\n\x7d\nText: \""

/-- Model of `_build_prompt` (src/backend/ernie.py lines 59-67): the fixed template
with the text spliced in, followed by the closing double quote. -/
def _build_prompt (text : List Char) : List Char :=
  promptHead.data ++ text ++ [ '\"']

/-- Constant `_TOKEN_LIMIT` (src/backend/ernie.py line 20). -/
def _TOKEN_LIMIT : Nat := 5120

/-- Constant `_TOKEN_SAFETY` (src/backend/ernie.py line 21). -/
def _TOKEN_SAFETY : Nat := 400

/-- Model of `_estimate_tokens` (src/backend/ernie.py lines 69-71):
`max(1, (len(s) + 3) // 4)`. -/
def _estimate_tokens (s : List Char) : Nat :=
  max 1 ((s.length + 3) / 4)

/-- The final-guard `while` loop of `_fit_text_to_token_budget`
(src/backend/ernie.py lines 89-90), with explicit fuel.  The source shrinks
with `int(len(text) * 0.9)` (a float product); it is modelled as
`9 * len / 10`.  Each iteration of the Python loop strictly decreases the
length (the guard requires `len > 1000`), so fuel `t.length` makes the
model agree with the loop on every input; moreover the proofs below show
the loop body is unreachable for every input the surrounding function can
feed it, so the float idealisation is inert. -/
def shrinkAux : Nat → List Char → List Char
  | 0, t => t
  | fuel + 1, t =>
    if _estimate_tokens (_build_prompt t) > _TOKEN_LIMIT - _TOKEN_SAFETY ∧ 1000 < t.length then
      shrinkAux fuel (t.take (9 * t.length / 10))
    else t

def shrinkLoop (t : List Char) : List Char :=
  shrinkAux t.length t

/-- The first cut of `_fit_text_to_token_budget` (src/backend/ernie.py
lines 84-87): `cut = text.rfind(" ", 0, char_budget)`;
`text = text[:cut if cut > 0 else char_budget]`. -/
def firstCut (text : List Char) (char_budget : Nat) : List Char :=
  match rfindChar ' ' (text.take char_budget) with
  | some cut => if 0 < cut then text.take cut else text.take char_budget
  | none => text.take char_budget

/-- Model of `_fit_text_to_token_budget` (src/backend/ernie.py lines 73-91).
Python integer arithmetic: `_TOKEN_LIMIT - overhead - _TOKEN_SAFETY` cannot
go negative here (and even if it could, the `max(1000, ...)` makes truncated
Nat subtraction agree with Python int subtraction). -/
def _fit_text_to_token_budget (text : List Char) : List Char :=
  if text = [] then text
  else
    let overhead_tokens := _estimate_tokens (_build_prompt [])
    let budget_tokens := max 1000 (_TOKEN_LIMIT - overhead_tokens - _TOKEN_SAFETY)
    let char_budget := max 1000 (budget_tokens * 3)
    let text1 := if char_budget < text.length then firstCut text char_budget else text
    shrinkLoop text1

/-- The `extract_entities_chunked` loop (src/backend/ernie.py lines 163-206)
with the ERNIE call abstracted as `oracle`; returns the merge state paired
with the list of texts actually sent to the extraction service.  Chunks
whose fitted text is empty are skipped but still consume a chunk index
(`enumerate`). -/
def extractAux (oracle : List Char → ChunkResult) :
    Nat → MergeState → List (List Char) → List (List Char) → MergeState × List (List Char)
  | _, st, calls, [] => (st, calls)
  | i, st, calls, c :: rest =>
    if _fit_text_to_token_budget c = [] then
      extractAux oracle (i + 1) st calls rest
    else
      extractAux oracle (i + 1)
        (processChunk i st (oracle (_fit_text_to_token_budget c)))
        (calls ++ [_fit_text_to_token_budget c]) rest

/-- Model of `extract_entities_chunked` (src/backend/ernie.py lines 151-212), with
the ERNIE API call abstracted as `oracle`.  The second component is the
trace of texts sent to the extraction service. -/
def extract_entities_chunked (oracle : List Char → ChunkResult)
    (text : List Char) (max_len : Nat) : Output × List (List Char) :=
  (finalizeOut (extractAux oracle 0 initMergeState [] (_chunk_text text max_len)).1,
    (extractAux oracle 0 initMergeState [] (_chunk_text text max_len)).2)

/-- Claim C10: on the empty input string `extract_entities_chunked` returns
exactly `{"title": "graph", "entities": [], "relations": []}` and performs
no call to the extraction service. -/
theorem extract_entities_chunked_empty (oracle : List Char → ChunkResult) (max_len : Nat) :
    extract_entities_chunked oracle [] max_len =
      (⟨[ 'g', 'r', 'a', 'p', 'h'], [], []⟩, []) := by
  have hc : _chunk_text [] max_len = [] := by
    simp [_chunk_text, chunkTextAux]
  simp [extract_entities_chunked, hc, extractAux, finalizeOut, initMergeState, truthy]

set_option maxRecDepth 40000

theorem overhead_val : _estimate_tokens (_build_prompt []) = 83 := by rfl

theorem build_prompt_length (t : List Char) : (_build_prompt t).length = t.length + 332 := by
  have hp : promptHead.data.length = 331 := by rfl
  simp [_build_prompt, hp]
  omega

theorem estimate_le_budget (r : List Char) (hr : r.length ≤ 13911) :
    _estimate_tokens (_build_prompt r) ≤ _TOKEN_LIMIT - _TOKEN_SAFETY := by
  rw [_estimate_tokens, build_prompt_length]
  unfold _TOKEN_LIMIT _TOKEN_SAFETY
  omega

theorem shrinkAux_id (fuel : Nat) (t : List Char)
    (h : _estimate_tokens (_build_prompt t) ≤ _TOKEN_LIMIT - _TOKEN_SAFETY) :
    shrinkAux fuel t = t := by
  cases fuel with
  | zero => rfl
  | succ n =>
    rw [shrinkAux, if_neg]
    rintro ⟨h1, _⟩
    omega

theorem shrinkAux_le_length : ∀ (fuel : Nat) (t : List Char),
    (shrinkAux fuel t).length ≤ t.length := by
  intro fuel
  induction fuel with
  | zero => intro t; exact le_rfl
  | succ n ih =>
    intro t
    rw [shrinkAux]
    split
    · calc (shrinkAux n (t.take (9 * t.length / 10))).length
          ≤ (t.take (9 * t.length / 10)).length := ih _
        _ ≤ t.length := by
            rw [List.length_take]
            have := Nat.min_le_right (9 * t.length / 10) t.length
            omega
    · exact le_rfl

theorem firstCut_length_le (text : List Char) (char_budget : Nat) :
    (firstCut text char_budget).length ≤ char_budget := by
  unfold firstCut
  have htk : (text.take char_budget).length ≤ char_budget := by
    rw [List.length_take]
    exact Nat.min_le_left _ _
  split
  next cut hr =>
    have hcut : cut < (text.take char_budget).length := rfindChar_lt_length hr
    split
    · rw [List.length_take]
      have := Nat.min_le_left cut text.length
      omega
    · exact htk
  next => exact htk

theorem fit_length_le (u : List Char) : (_fit_text_to_token_budget u).length ≤ 13911 := by
  by_cases hu : u = []
  · simp [_fit_text_to_token_budget, hu]
  · simp only [_fit_text_to_token_budget, if_neg hu, overhead_val]
    norm_num [_TOKEN_LIMIT, _TOKEN_SAFETY]
    by_cases hlen : 13911 < u.length
    · rw [if_pos hlen]
      calc (shrinkLoop (firstCut u 13911)).length
          ≤ (firstCut u 13911).length := shrinkAux_le_length _ _
        _ ≤ 13911 := firstCut_length_le u 13911
    · rw [if_neg hlen]
      calc (shrinkLoop u).length ≤ u.length := shrinkAux_le_length _ _
        _ ≤ 13911 := by omega

/-- Claim C7: the budget fitter is idempotent — applying
`_fit_text_to_token_budget` twice gives the same result as applying it
once, for every chunk string. -/
theorem fit_text_idempotent (c : List Char) :
    _fit_text_to_token_budget (_fit_text_to_token_budget c) =
      _fit_text_to_token_budget c := by
  have hr : (_fit_text_to_token_budget c).length ≤ 13911 := fit_length_le c
  set r := _fit_text_to_token_budget c with hrd
  by_cases hre : r = []
  · rw [hre]
    simp [_fit_text_to_token_budget]
  · simp only [_fit_text_to_token_budget, if_neg hre, overhead_val]
    norm_num [_TOKEN_LIMIT, _TOKEN_SAFETY]
    rw [if_neg (by omega)]
    unfold shrinkLoop
    exact shrinkAux_id _ _ (estimate_le_budget _ hr)

/-- The (non-empty) canonical keys contributed by an entity list, in order. -/
def keysOf (es : List EEntity) : List (List Char) :=
  es.filterMap (fun e => if entityKey e = [] then none else some (entityKey e))

/-- All canonical keys contributed by a sequence of chunk results. -/
def allKeys (rs : List ChunkResult) : List (List Char) :=
  (rs.map (fun cr => keysOf cr.entities)).flatten

theorem alookup_none {α : Type} : ∀ {l : List (List Char × α)} {k : List Char},
    alookup l k = none → k ∉ l.map Prod.fst := by
  intro l
  induction l with
  | nil => intro k _ hk; simp at hk
  | cons p rest ih =>
    intro k h hk
    rw [alookup] at h
    by_cases hp : p.1 = k
    · simp [hp] at h
    · rw [if_neg hp] at h
      simp only [List.map_cons, List.mem_cons] at hk
      rcases hk with hk | hk
      · exact hp hk.symm
      · exact ih h hk

theorem alookup_mem {α : Type} : ∀ {l : List (List Char × α)} {k : List Char} {v : α},
    alookup l k = some v → k ∈ l.map Prod.fst := by
  intro l
  induction l with
  | nil => intro k v h; exact Option.noConfusion h
  | cons p rest ih =>
    intro k v h
    rw [alookup] at h
    by_cases hp : p.1 = k
    · simp only [List.map_cons, List.mem_cons]
      exact Or.inl hp.symm
    · rw [if_neg hp] at h
      simp only [List.map_cons, List.mem_cons]
      exact Or.inr (ih h)

theorem stepRelation_entities (lm : List (List Char × List Char)) (st : MergeState)
    (r : ERelation) : (stepRelation lm st r).combined_entities = st.combined_entities := by
  simp only [stepRelation]
  split <;> rfl

theorem stepRelation_canonical (lm : List (List Char × List Char)) (st : MergeState)
    (r : ERelation) : (stepRelation lm st r).canonical_to_id = st.canonical_to_id := by
  simp only [stepRelation]
  split <;> rfl

theorem stepRelation_title (lm : List (List Char × List Char)) (st : MergeState)
    (r : ERelation) : (stepRelation lm st r).first_title = st.first_title := by
  simp only [stepRelation]
  split <;> rfl

theorem relFold_entities (lm : List (List Char × List Char)) :
    ∀ (rl : List ERelation) (st : MergeState),
    ((rl.foldl (stepRelation lm) st).combined_entities = st.combined_entities ∧
     (rl.foldl (stepRelation lm) st).canonical_to_id = st.canonical_to_id ∧
     (rl.foldl (stepRelation lm) st).first_title = st.first_title) := by
  intro rl
  induction rl with
  | nil => intro st; exact ⟨rfl, rfl, rfl⟩
  | cons r rest ih =>
    intro st
    rw [List.foldl_cons]
    rcases ih (stepRelation lm st r) with ⟨h1, h2, h3⟩
    rw [h1, h2, h3]
    exact ⟨stepRelation_entities lm st r, stepRelation_canonical lm st r,
      stepRelation_title lm st r⟩

theorem stepEntity_cases (i : Nat) (st : MergeState) (lm : List (List Char × List Char))
    (e : EEntity) :
    (entityKey e = [] ∧ stepEntity i (st, lm) e = (st, lm)) ∨
    (∃ cid, entityKey e ≠ [] ∧ alookup st.canonical_to_id (entityKey e) = some cid ∧
      stepEntity i (st, lm) e = (st, (pyStr e.id, cid) :: lm)) ∨
    (entityKey e ≠ [] ∧ alookup st.canonical_to_id (entityKey e) = none ∧
      stepEntity i (st, lm) e =
        ({ st with
            canonical_to_id := (entityKey e, (mintedEntity i st e).id) :: st.canonical_to_id,
            combined_entities := st.combined_entities ++ [mintedEntity i st e] },
          (pyStr e.id, (mintedEntity i st e).id) :: lm)) := by
  by_cases hk : entityKey e = []
  · exact Or.inl ⟨hk, by simp [stepEntity, hk]⟩
  · cases hl : alookup st.canonical_to_id (entityKey e) with
    | some cid =>
      refine Or.inr (Or.inl ⟨cid, hk, rfl, ?_⟩)
      simp [stepEntity, hk, hl]
    | none =>
      refine Or.inr (Or.inr ⟨hk, rfl, ?_⟩)
      simp [stepEntity, hk, hl]

theorem entFold_inv (i : Nat) : ∀ (es : List EEntity) (st : MergeState)
    (lm : List (List Char × List Char)),
    (st.canonical_to_id.map Prod.fst).Nodup →
    st.combined_entities.length = st.canonical_to_id.length →
    (((es.foldl (stepEntity i) (st, lm)).1.canonical_to_id.map Prod.fst).Nodup ∧
     (es.foldl (stepEntity i) (st, lm)).1.combined_entities.length =
       (es.foldl (stepEntity i) (st, lm)).1.canonical_to_id.length ∧
     ((es.foldl (stepEntity i) (st, lm)).1.canonical_to_id.map Prod.fst).toFinset =
       (st.canonical_to_id.map Prod.fst).toFinset ∪ (keysOf es).toFinset) := by
  intro es
  induction es with
  | nil =>
    intro st lm h1 h2
    exact ⟨h1, h2, by simp [keysOf]⟩
  | cons e rest ih =>
    intro st lm h1 h2
    rw [List.foldl_cons]
    rcases stepEntity_cases i st lm e with ⟨hk, hst⟩ | ⟨cid, hk, hl, hst⟩ | ⟨hk, hl, hst⟩
    · rw [hst]
      rcases ih st lm h1 h2 with ⟨g1, g2, g3⟩
      refine ⟨g1, g2, ?_⟩
      rw [g3]
      have : keysOf (e :: rest) = keysOf rest := by
        simp [keysOf, hk]
      rw [this]
    · rw [hst]
      rcases ih st ((pyStr e.id, cid) :: lm) h1 h2 with ⟨g1, g2, g3⟩
      refine ⟨g1, g2, ?_⟩
      rw [g3]
      have hkeys : keysOf (e :: rest) = entityKey e :: keysOf rest := by
        simp [keysOf, hk]
      rw [hkeys]
      have hmem : entityKey e ∈ (st.canonical_to_id.map Prod.fst).toFinset :=
        List.mem_toFinset.mpr (alookup_mem hl)
      rw [List.toFinset_cons]
      rw [Finset.union_insert]
      rw [Finset.insert_eq_self.mpr (Finset.mem_union_left _ hmem)]
    · rw [hst]
      have h1' : ((((entityKey e, (mintedEntity i st e).id) ::
          st.canonical_to_id).map Prod.fst)).Nodup := by
        simp only [List.map_cons]
        exact List.Nodup.cons (alookup_none hl) h1
      have h2' : (st.combined_entities ++ [mintedEntity i st e]).length =
          ((entityKey e, (mintedEntity i st e).id) :: st.canonical_to_id).length := by
        simp [h2]
      rcases ih ({ st with
            canonical_to_id := (entityKey e, (mintedEntity i st e).id) :: st.canonical_to_id,
            combined_entities := st.combined_entities ++ [mintedEntity i st e] })
          ((pyStr e.id, (mintedEntity i st e).id) :: lm) h1' h2' with ⟨g1, g2, g3⟩
      refine ⟨g1, g2, ?_⟩
      rw [g3]
      have hkeys : keysOf (e :: rest) = entityKey e :: keysOf rest := by
        simp [keysOf, hk]
      rw [hkeys]
      simp only [List.map_cons, List.toFinset_cons]
      rw [Finset.insert_union, Finset.union_insert]

theorem processChunk_inv (i : Nat) (st : MergeState) (cr : ChunkResult)
    (h1 : (st.canonical_to_id.map Prod.fst).Nodup)
    (h2 : st.combined_entities.length = st.canonical_to_id.length) :
    (((processChunk i st cr).canonical_to_id.map Prod.fst).Nodup ∧
     (processChunk i st cr).combined_entities.length =
       (processChunk i st cr).canonical_to_id.length ∧
     ((processChunk i st cr).canonical_to_id.map Prod.fst).toFinset =
       (st.canonical_to_id.map Prod.fst).toFinset ∪ (keysOf cr.entities).toFinset) := by
  unfold processChunk
  rcases relFold_entities
      ((cr.entities.foldl (stepEntity i)
        ({ st with first_title := if truthy st.first_title then st.first_title else cr.title }, [])).2)
      cr.relations
      ((cr.entities.foldl (stepEntity i)
        ({ st with first_title := if truthy st.first_title then st.first_title else cr.title }, [])).1)
    with ⟨r1, r2, _⟩
  rw [r1, r2]
  exact entFold_inv i cr.entities
    { st with first_title := if truthy st.first_title then st.first_title else cr.title } [] h1 h2

theorem mergeAux_inv : ∀ (rs : List ChunkResult) (i : Nat) (st : MergeState),
    (st.canonical_to_id.map Prod.fst).Nodup →
    st.combined_entities.length = st.canonical_to_id.length →
    (((mergeAux i st rs).canonical_to_id.map Prod.fst).Nodup ∧
     (mergeAux i st rs).combined_entities.length = (mergeAux i st rs).canonical_to_id.length ∧
     ((mergeAux i st rs).canonical_to_id.map Prod.fst).toFinset =
       (st.canonical_to_id.map Prod.fst).toFinset ∪ (allKeys rs).toFinset) := by
  intro rs
  induction rs with
  | nil =>
    intro i st h1 h2
    exact ⟨h1, h2, by simp [mergeAux, allKeys]⟩
  | cons cr rest ih =>
    intro i st h1 h2
    rw [mergeAux]
    rcases processChunk_inv i st cr h1 h2 with ⟨p1, p2, p3⟩
    rcases ih (i + 1) (processChunk i st cr) p1 p2 with ⟨g1, g2, g3⟩
    refine ⟨g1, g2, ?_⟩
    rw [g3, p3]
    have : allKeys (cr :: rest) = keysOf cr.entities ++ allKeys rest := by
      simp [allKeys]
    rw [this, List.toFinset_append, Finset.union_assoc]

/-- Claim C2: the merge creates at most (indeed exactly) one global entity
per normalized canonical key — the number of merged entities equals the
number of distinct non-empty normalized keys over the whole sequence of
chunk results; and concretely, two entities with canonical values
`"Acme Corp"` and `"acme corp "` arriving in different chunks merge into
exactly one global entity, with the first-seen attributes winning. -/
theorem merge_dedup_per_key :
    (∀ rs : List ChunkResult,
      (mergeResults rs).entities.length = (allKeys rs).toFinset.card) ∧
    mergeResults
      [⟨none, [⟨some [ 'E', '1'], some [ 'O', 'r', 'g'],
          some [ 'A', 'c', 'm', 'e', ' ', 'C', 'o', 'r', 'p'],
          some [ 'A', 'c', 'm', 'e', ' ', 'C', 'o', 'r', 'p']⟩], []⟩,
       ⟨none, [⟨some [ 'E', '1'], some [ 'C', 'o'],
          some [ 'a', 'c', 'm', 'e', ' ', 'c', 'o', 'r', 'p', ' '],
          some [ 'a', 'c', 'm', 'e', ' ', 'c', 'o', 'r', 'p', ' ']⟩], []⟩] =
      ⟨[ 'g', 'r', 'a', 'p', 'h'],
       [⟨[ 'c', '0', '_', 'E', '1'], [ 'O', 'r', 'g'],
          [ 'A', 'c', 'm', 'e', ' ', 'C', 'o', 'r', 'p'],
          [ 'A', 'c', 'm', 'e', ' ', 'C', 'o', 'r', 'p']⟩], []⟩ := by
  constructor
  · intro rs
    rcases mergeAux_inv rs 0 initMergeState (by simp [initMergeState])
        (by simp [initMergeState]) with ⟨g1, g2, g3⟩
    have hcard : ((mergeAux 0 initMergeState rs).canonical_to_id.map Prod.fst).toFinset.card =
        ((mergeAux 0 initMergeState rs).canonical_to_id.map Prod.fst).length :=
      List.toFinset_card_of_nodup g1
    have hinit : ((initMergeState.canonical_to_id.map Prod.fst).toFinset :
        Finset (List Char)) = ∅ := by
      simp [initMergeState]
    rw [hinit] at g3
    simp only [Finset.empty_union] at g3
    have : (mergeResults rs).entities = (mergeAux 0 initMergeState rs).combined_entities := rfl
    rw [this, g2, ← List.length_map _ Prod.fst, ← hcard, g3]
  · decide

/-- Numeric value of a decimal digit character. -/
def digitVal (c : Char) : Nat :=
  match c with
  | '0' => 0
  | '1' => 1
  | '2' => 2
  | '3' => 3
  | '4' => 4
  | '5' => 5
  | '6' => 6
  | '7' => 7
  | '8' => 8
  | '9' => 9
  | _ => 0

/-- The number denoted by a digit string (used only to invert `natChars`). -/
def valOf (l : List Char) : Nat :=
  l.foldl (fun a c => 10 * a + digitVal c) 0

theorem valOf_append (xs : List Char) (c : Char) :
    valOf (xs ++ [c]) = 10 * valOf xs + digitVal c := by
  unfold valOf
  rw [List.foldl_append]
  rfl

theorem digitVal_digitChar (d : Nat) (h : d < 10) : digitVal (digitChar d) = d := by
  interval_cases d <;> rfl

theorem digitChar_ne_underscore (d : Nat) : digitChar d ≠ '_' := by
  unfold digitChar
  split <;> decide

theorem natCharsAux_val : ∀ fuel n, n ≤ fuel → valOf (natCharsAux fuel n) = n := by
  intro fuel
  induction fuel with
  | zero =>
    intro n hn
    have : n = 0 := Nat.le_zero.mp hn
    subst this
    rfl
  | succ f ih =>
    intro n hn
    rw [natCharsAux]
    by_cases h10 : n < 10
    · rw [if_pos h10]
      show valOf [digitChar n] = n
      unfold valOf
      simp [digitVal_digitChar n h10]
    · rw [if_neg h10]
      rw [valOf_append, ih (n / 10) (by omega), digitVal_digitChar (n % 10) (by omega)]
      omega

theorem natChars_inj {m n : Nat} (h : natChars m = natChars n) : m = n := by
  have hm := natCharsAux_val m m le_rfl
  have hn := natCharsAux_val n n le_rfl
  unfold natChars at h
  rw [← hm, ← hn, h]

theorem natCharsAux_ne_underscore : ∀ fuel n, ∀ c ∈ natCharsAux fuel n, c ≠ '_' := by
  intro fuel
  induction fuel with
  | zero =>
    intro n c hc
    rw [natCharsAux, List.mem_singleton] at hc
    subst hc
    exact digitChar_ne_underscore n
  | succ f ih =>
    intro n c hc
    rw [natCharsAux] at hc
    by_cases h10 : n < 10
    · rw [if_pos h10, List.mem_singleton] at hc
      subst hc
      exact digitChar_ne_underscore n
    · rw [if_neg h10, List.mem_append] at hc
      rcases hc with hc | hc
      · exact ih (n / 10) c hc
      · rw [List.mem_singleton] at hc
        subst hc
        exact digitChar_ne_underscore (n % 10)

theorem append_underscore_inj : ∀ (xs ys b b' : List Char),
    (∀ c ∈ xs, c ≠ '_') → (∀ c ∈ ys, c ≠ '_') →
    xs ++ '_' :: b = ys ++ '_' :: b' → xs = ys ∧ b = b' := by
  intro xs
  induction xs with
  | nil =>
    intro ys b b' _ hys h
    cases ys with
    | nil =>
      simp only [List.nil_append] at h
      exact ⟨rfl, (List.cons.injEq _ _ _ _).mp h |>.2⟩
    | cons y ys' =>
      simp only [List.nil_append, List.cons_append] at h
      have hy : '_' = y := ((List.cons.injEq _ _ _ _).mp h).1
      exact absurd hy.symm (hys y (List.mem_cons_self y ys'))
  | cons x xs' ih =>
    intro ys b b' hxs hys h
    cases ys with
    | nil =>
      simp only [List.cons_append, List.nil_append] at h
      have hx : x = '_' := ((List.cons.injEq _ _ _ _).mp h).1
      exact absurd hx (hxs x (List.mem_cons_self x xs'))
    | cons y ys' =>
      simp only [List.cons_append] at h
      have hx : x = y := ((List.cons.injEq _ _ _ _).mp h).1
      have htl := ((List.cons.injEq _ _ _ _).mp h).2
      rcases ih ys' b b' (fun c hc => hxs c (List.mem_cons_of_mem x hc))
        (fun c hc => hys c (List.mem_cons_of_mem y hc)) htl with ⟨h1, h2⟩
      exact ⟨by rw [hx, h1], h2⟩

theorem mintId_inj {i j : Nat} {b b' : List Char} (h : mintId i b = mintId j b') :
    i = j ∧ b = b' := by
  unfold mintId at h
  have htl := ((List.cons.injEq _ _ _ _).mp h).2
  rcases append_underscore_inj (natChars i) (natChars j) b b'
    (natCharsAux_ne_underscore i i) (natCharsAux_ne_underscore j j) htl with ⟨h1, h2⟩
  exact ⟨natChars_inj h1, h2⟩

theorem truthy_some {s : List Char} (hs : s ≠ []) : truthy (some s) = true := by
  unfold truthy
  cases s with
  | nil => exact absurd rfl hs
  | cons a l => rfl

theorem entFold_ids (i : Nat) : ∀ (es : List EEntity) (st : MergeState)
    (lm : List (List Char × List Char)) (seen : List (List Char)),
    (∀ e ∈ es, ∃ s, e.id = some s ∧ s ≠ [] ∧ s ∉ seen) →
    (es.filterMap EEntity.id).Nodup →
    ((st.combined_entities.map (fun g => g.id)).Nodup) →
    (∀ g ∈ st.combined_entities, ∃ j b, g.id = mintId j b ∧ (j < i ∨ (j = i ∧ b ∈ seen))) →
    (((es.foldl (stepEntity i) (st, lm)).1.combined_entities.map (fun g => g.id)).Nodup ∧
     (∀ g ∈ (es.foldl (stepEntity i) (st, lm)).1.combined_entities,
       ∃ j b, g.id = mintId j b ∧
         (j < i ∨ (j = i ∧ b ∈ seen ++ es.filterMap EEntity.id)))) := by
  intro es
  induction es with
  | nil =>
    intro st lm seen _ _ h3 h4
    refine ⟨h3, ?_⟩
    intro g hg
    rcases h4 g hg with ⟨j, b, hid, hj⟩
    exact ⟨j, b, hid, by simpa using hj⟩
  | cons e rest ih =>
    intro st lm seen h1 h2 h3 h4
    rcases h1 e (List.mem_cons_self e rest) with ⟨s, hs, hsne, hsseen⟩
    have hfm : (e :: rest).filterMap EEntity.id = s :: rest.filterMap EEntity.id := by
      simp [List.filterMap_cons, hs]
    rw [hfm] at h2
    have h2rest : (rest.filterMap EEntity.id).Nodup := (List.nodup_cons.mp h2).2
    have hsnotin : s ∉ rest.filterMap EEntity.id := (List.nodup_cons.mp h2).1
    have hseenext : ∀ e' ∈ rest, ∃ s', e'.id = some s' ∧ s' ≠ [] ∧ s' ∉ seen ++ [s] := by
      intro e' he'
      rcases h1 e' (List.mem_cons_of_mem e he') with ⟨s', hs', hne', hseen'⟩
      refine ⟨s', hs', hne', ?_⟩
      rw [List.mem_append]
      rintro (hc | hc)
      · exact hseen' hc
      · rw [List.mem_singleton] at hc
        subst hc
        exact hsnotin (List.mem_filterMap.mpr ⟨e', he', hs'⟩)
    have hgoal : ∀ st' lm',
        (st'.combined_entities.map (fun g => g.id)).Nodup →
        (∀ g ∈ st'.combined_entities, ∃ j b, g.id = mintId j b ∧
          (j < i ∨ (j = i ∧ b ∈ seen ++ [s]))) →
        (((rest.foldl (stepEntity i) (st', lm')).1.combined_entities.map
            (fun g => g.id)).Nodup ∧
         (∀ g ∈ (rest.foldl (stepEntity i) (st', lm')).1.combined_entities,
           ∃ j b, g.id = mintId j b ∧
             (j < i ∨ (j = i ∧ b ∈ seen ++ (e :: rest).filterMap EEntity.id)))) := by
      intro st' lm' g3 g4
      rcases ih st' lm' (seen ++ [s]) hseenext h2rest g3 g4 with ⟨c1, c2⟩
      refine ⟨c1, ?_⟩
      intro g hg
      rcases c2 g hg with ⟨j, b, hid, hj⟩
      refine ⟨j, b, hid, ?_⟩
      rcases hj with hj | ⟨hj, hb⟩
      · exact Or.inl hj
      · refine Or.inr ⟨hj, ?_⟩
        rw [hfm]
        simp only [List.mem_append, List.mem_cons] at hb ⊢
        rcases hb with (hb | hb | hb) | hb
        · exact Or.inl hb
        · exact Or.inr (Or.inl hb)
        · simp at hb
        · exact Or.inr (Or.inr hb)
    rw [List.foldl_cons]
    rcases stepEntity_cases i st lm e with ⟨hk, hst⟩ | ⟨cid, hk, hl, hst⟩ | ⟨hk, hl, hst⟩
    · rw [hst]
      refine hgoal st lm h3 ?_
      intro g hg
      rcases h4 g hg with ⟨j, b, hid, hj⟩
      refine ⟨j, b, hid, ?_⟩
      rcases hj with hj | ⟨hj, hb⟩
      · exact Or.inl hj
      · exact Or.inr ⟨hj, by simp [hb]⟩
    · rw [hst]
      refine hgoal st ((pyStr e.id, cid) :: lm) h3 ?_
      intro g hg
      rcases h4 g hg with ⟨j, b, hid, hj⟩
      refine ⟨j, b, hid, ?_⟩
      rcases hj with hj | ⟨hj, hb⟩
      · exact Or.inl hj
      · exact Or.inr ⟨hj, by simp [hb]⟩
    · rw [hst]
      have hbase : baseLocal st e = s := by
        unfold baseLocal
        rw [hs, truthy_some hsne]
        rfl
      have hmid : (mintedEntity i st e).id = mintId i s := by
        unfold mintedEntity
        rw [hbase]
      have hnewnodup : ((st.combined_entities ++ [mintedEntity i st e]).map
          (fun g => g.id)).Nodup := by
        rw [List.map_append]
        refine List.Nodup.append h3 (by simp) ?_
        intro x hx hx2
        simp only [List.map_cons, List.map_nil, List.mem_singleton] at hx2
        subst hx2
        rw [List.mem_map] at hx
        rcases hx with ⟨g, hg, hgid⟩
        rcases h4 g hg with ⟨j, b, hid, hj⟩
        rw [hid] at hgid
        rw [hmid] at hgid
        rcases mintId_inj hgid with ⟨hij, hbs⟩
        rcases hj with hj | ⟨hj, hb⟩
        · omega
        · subst hbs
          exact hsseen hb
      have hnewinv : ∀ g ∈ st.combined_entities ++ [mintedEntity i st e],
          ∃ j b, g.id = mintId j b ∧ (j < i ∨ (j = i ∧ b ∈ seen ++ [s])) := by
        intro g hg
        rw [List.mem_append] at hg
        rcases hg with hg | hg
        · rcases h4 g hg with ⟨j, b, hid, hj⟩
          refine ⟨j, b, hid, ?_⟩
          rcases hj with hj | ⟨hj, hb⟩
          · exact Or.inl hj
          · exact Or.inr ⟨hj, by simp [hb]⟩
        · rw [List.mem_singleton] at hg
          subst hg
          exact ⟨i, s, hmid, Or.inr ⟨rfl, by simp⟩⟩
      exact hgoal _ _ hnewnodup hnewinv

theorem processChunk_ids (i : Nat) (st : MergeState) (cr : ChunkResult)
    (hcr1 : ∀ e ∈ cr.entities, ∃ s, e.id = some s ∧ s ≠ [])
    (hcr2 : (cr.entities.filterMap EEntity.id).Nodup)
    (h1 : (st.combined_entities.map (fun g => g.id)).Nodup)
    (h2 : ∀ g ∈ st.combined_entities, ∃ j b, g.id = mintId j b ∧ j < i) :
    (((processChunk i st cr).combined_entities.map (fun g => g.id)).Nodup ∧
     ∀ g ∈ (processChunk i st cr).combined_entities,
       ∃ j b, g.id = mintId j b ∧ j < i + 1) := by
  unfold processChunk
  rcases relFold_entities
      ((cr.entities.foldl (stepEntity i)
        ({ st with first_title := if truthy st.first_title then st.first_title else cr.title }, [])).2)
      cr.relations
      ((cr.entities.foldl (stepEntity i)
        ({ st with first_title := if truthy st.first_title then st.first_title else cr.title }, [])).1)
    with ⟨r1, _, _⟩
  rw [r1]
  have ha : ∀ e ∈ cr.entities, ∃ s, e.id = some s ∧ s ≠ [] ∧ s ∉ ([] : List (List Char)) := by
    intro e he
    rcases hcr1 e he with ⟨s, hs, hsne⟩
    exact ⟨s, hs, hsne, by simp⟩
  have hb : ∀ g ∈ ({ st with
      first_title := if truthy st.first_title then st.first_title
        else cr.title } : MergeState).combined_entities,
      ∃ j b, g.id = mintId j b ∧ (j < i ∨ (j = i ∧ b ∈ ([] : List (List Char)))) := by
    intro g hg
    rcases h2 g hg with ⟨j, b, hid, hj⟩
    exact ⟨j, b, hid, Or.inl hj⟩
  rcases entFold_ids i cr.entities
      { st with first_title := if truthy st.first_title then st.first_title else cr.title }
      [] [] ha hcr2 h1 hb with ⟨c1, c2⟩
  refine ⟨c1, ?_⟩
  intro g hg
  rcases c2 g hg with ⟨j, b, hid, hj⟩
  refine ⟨j, b, hid, ?_⟩
  rcases hj with hj | ⟨hj, _⟩ <;> omega

theorem mergeAux_ids : ∀ (rs : List ChunkResult) (i : Nat) (st : MergeState),
    (∀ cr ∈ rs, (∀ e ∈ cr.entities, ∃ s, e.id = some s ∧ s ≠ []) ∧
      (cr.entities.filterMap EEntity.id).Nodup) →
    ((st.combined_entities.map (fun g => g.id)).Nodup) →
    (∀ g ∈ st.combined_entities, ∃ j b, g.id = mintId j b ∧ j < i) →
    ((mergeAux i st rs).combined_entities.map (fun g => g.id)).Nodup := by
  intro rs
  induction rs with
  | nil => intro i st _ h1 _; exact h1
  | cons cr rest ih =>
    intro i st hrs h1 h2
    rw [mergeAux]
    rcases processChunk_ids i st cr (hrs cr (List.mem_cons_self cr rest)).1
        (hrs cr (List.mem_cons_self cr rest)).2 h1 h2 with ⟨p1, p2⟩
    exact ih (i + 1) (processChunk i st cr)
      (fun cr' hcr' => hrs cr' (List.mem_cons_of_mem cr hcr')) p1 p2

/-- Claim C3 counterexample: one chunk containing two entities with the
same local id `"E1"` but different canonical keys mints the same global id
`"c0_E1"` for two distinct global entities — global ids are not unique when
local ids repeat within a chunk. -/
theorem merge_global_id_cex :
    ((mergeResults [⟨none,
        [⟨some [ 'E', '1'], none, none, some [ 'a']⟩,
         ⟨some [ 'E', '1'], none, none, some [ 'b']⟩], []⟩]).entities.map
      (fun g => (g.id, g.canonical))) =
      [([ 'c', '0', '_', 'E', '1'], [ 'a']), ([ 'c', '0', '_', 'E', '1'], [ 'b'])] ∧
    ¬ ((mergeResults [⟨none,
        [⟨some [ 'E', '1'], none, none, some [ 'a']⟩,
         ⟨some [ 'E', '1'], none, none, some [ 'b']⟩], []⟩]).entities.map
      (fun g => g.id)).Nodup := by
  constructor
  · decide
  · decide

/-- Claim C3 amended: a minted global id embeds its chunk index, so ids
minted in different chunks never collide; within one chunk two distinct
global entities can share an id only when minted from the same base local
id string.  Hence all global ids are pairwise distinct whenever, in every
chunk result, the entities carry present, non-empty, pairwise-distinct
local ids. -/
theorem merge_global_id_unique (rs : List ChunkResult)
    (h : ∀ cr ∈ rs, (∀ e ∈ cr.entities, ∃ s, e.id = some s ∧ s ≠ []) ∧
      (cr.entities.filterMap EEntity.id).Nodup) :
    ((mergeResults rs).entities.map (fun g => g.id)).Nodup := by
  have : (mergeResults rs).entities = (mergeAux 0 initMergeState rs).combined_entities := rfl
  rw [this]
  exact mergeAux_ids rs 0 initMergeState h (by simp [initMergeState])
    (by intro g hg; simp [initMergeState] at hg)

/-- Witness for the amended C3: two chunks, the first with two entities of
distinct local ids, the second reusing local id `"E1"`; all three global
ids come out distinct. -/
theorem merge_global_id_unique_witness :
    ((mergeResults [⟨none,
        [⟨some [ 'E', '1'], none, none, some [ 'a']⟩,
         ⟨some [ 'E', '2'], none, none, some [ 'b']⟩], []⟩,
      ⟨none, [⟨some [ 'E', '1'], none, none, some [ 'c']⟩], []⟩]).entities.map
      (fun g => g.id)).Nodup :=
  merge_global_id_unique _ (by
    intro cr hcr
    simp only [List.mem_cons, List.not_mem_nil] at hcr
    rcases hcr with hcr | hcr | hcr
    · subst hcr
      refine ⟨?_, by decide⟩
      intro e he
      simp only [List.mem_cons, List.not_mem_nil] at he
      rcases he with he | he | he
      · subst he; exact ⟨[ 'E', '1'], rfl, by decide⟩
      · subst he; exact ⟨[ 'E', '2'], rfl, by decide⟩
      · exact he.elim
    · subst hcr
      refine ⟨?_, by decide⟩
      intro e he
      simp only [List.mem_cons, List.not_mem_nil] at he
      rcases he with he | he
      · subst he; exact ⟨[ 'E', '1'], rfl, by decide⟩
      · exact he.elim
    · exact hcr.elim)

theorem alookup_mem_pair {α : Type} : ∀ {l : List (List Char × α)} {k : List Char} {v : α},
    alookup l k = some v → (k, v) ∈ l := by
  intro l
  induction l with
  | nil => intro k v h; exact Option.noConfusion h
  | cons p rest ih =>
    intro k v h
    cases p with
    | mk k0 v0 =>
      rw [alookup] at h
      by_cases hp : k0 = k
      · rw [if_pos hp] at h
        have hv : v0 = v := Option.some.inj h
        subst hv
        subst hp
        exact List.mem_cons_self _ _
      · rw [if_neg hp] at h
        exact List.mem_cons_of_mem _ (ih h)

theorem stepEntity_mono (i : Nat) (st : MergeState) (lm : List (List Char × List Char))
    (e : EEntity) :
    (∀ g ∈ st.combined_entities, g ∈ (stepEntity i (st, lm) e).1.combined_entities) ∧
    (stepEntity i (st, lm) e).1.combined_relations = st.combined_relations ∧
    (∀ p ∈ st.canonical_to_id, p ∈ (stepEntity i (st, lm) e).1.canonical_to_id) := by
  rcases stepEntity_cases i st lm e with ⟨_, hst⟩ | ⟨cid, _, _, hst⟩ | ⟨_, _, hst⟩
  · rw [hst]
    exact ⟨fun g hg => hg, rfl, fun p hp => hp⟩
  · rw [hst]
    exact ⟨fun g hg => hg, rfl, fun p hp => hp⟩
  · rw [hst]
    exact ⟨fun g hg => List.mem_append_left _ hg, rfl,
      fun p hp => List.mem_cons_of_mem _ hp⟩

/-- During the entity fold, every id stored in `canonical_to_id` or in the
chunk-local map is the id of some already-merged entity; entities only
grow and relations stay untouched. -/
theorem entFold_endpoints (i : Nat) : ∀ (es : List EEntity) (st : MergeState)
    (lm : List (List Char × List Char)),
    (∀ p ∈ st.canonical_to_id, ∃ g ∈ st.combined_entities, g.id = p.2) →
    (∀ p ∈ lm, ∃ g ∈ st.combined_entities, g.id = p.2) →
    ((∀ p ∈ (es.foldl (stepEntity i) (st, lm)).1.canonical_to_id,
        ∃ g ∈ (es.foldl (stepEntity i) (st, lm)).1.combined_entities, g.id = p.2) ∧
     (∀ p ∈ (es.foldl (stepEntity i) (st, lm)).2,
        ∃ g ∈ (es.foldl (stepEntity i) (st, lm)).1.combined_entities, g.id = p.2) ∧
     (∀ g ∈ st.combined_entities, g ∈ (es.foldl (stepEntity i) (st, lm)).1.combined_entities) ∧
     (es.foldl (stepEntity i) (st, lm)).1.combined_relations = st.combined_relations) := by
  intro es
  induction es with
  | nil =>
    intro st lm h1 h2
    exact ⟨h1, h2, fun g hg => hg, rfl⟩
  | cons e rest ih =>
    intro st lm h1 h2
    rw [List.foldl_cons]
    rcases stepEntity_cases i st lm e with ⟨_, hst⟩ | ⟨cid, _, hl, hst⟩ | ⟨_, _, hst⟩
    · rw [hst]
      exact ih st lm h1 h2
    · rw [hst]
      have h2' : ∀ p ∈ (pyStr e.id, cid) :: lm, ∃ g ∈ st.combined_entities, g.id = p.2 := by
        intro p hp
        rw [List.mem_cons] at hp
        rcases hp with hp | hp
        · subst hp
          rcases h1 (entityKey e, cid) (alookup_mem_pair hl) with ⟨g, hg, hgid⟩
          exact ⟨g, hg, hgid⟩
        · exact h2 p hp
      exact ih st _ h1 h2'
    · rw [hst]
      have hmono : ∀ g ∈ st.combined_entities,
          g ∈ st.combined_entities ++ [mintedEntity i st e] :=
        fun g hg => List.mem_append_left _ hg
      have h1' : ∀ p ∈ (entityKey e, (mintedEntity i st e).id) :: st.canonical_to_id,
          ∃ g ∈ st.combined_entities ++ [mintedEntity i st e], g.id = p.2 := by
        intro p hp
        rw [List.mem_cons] at hp
        rcases hp with hp | hp
        · subst hp
          exact ⟨mintedEntity i st e, List.mem_append_right _ (List.mem_singleton.mpr rfl), rfl⟩
        · rcases h1 p hp with ⟨g, hg, hgid⟩
          exact ⟨g, hmono g hg, hgid⟩
      have h2' : ∀ p ∈ (pyStr e.id, (mintedEntity i st e).id) :: lm,
          ∃ g ∈ st.combined_entities ++ [mintedEntity i st e], g.id = p.2 := by
        intro p hp
        rw [List.mem_cons] at hp
        rcases hp with hp | hp
        · subst hp
          exact ⟨mintedEntity i st e, List.mem_append_right _ (List.mem_singleton.mpr rfl), rfl⟩
        · rcases h2 p hp with ⟨g, hg, hgid⟩
          exact ⟨g, hmono g hg, hgid⟩
      rcases ih ({ st with
            canonical_to_id := (entityKey e, (mintedEntity i st e).id) :: st.canonical_to_id,
            combined_entities := st.combined_entities ++ [mintedEntity i st e] })
          ((pyStr e.id, (mintedEntity i st e).id) :: lm) h1' h2' with ⟨c1, c2, c3, c4⟩
      exact ⟨c1, c2, fun g hg => c3 g (hmono g hg), c4⟩

theorem truthy_eq_true {o : Option (List Char)} (h : truthy o = true) :
    ∃ s, o = some s ∧ s ≠ [] := by
  cases o with
  | none => exact absurd h (by simp [truthy])
  | some s =>
    refine ⟨s, rfl, ?_⟩
    intro hs
    subst hs
    exact absurd h (by simp [truthy])

/-- Every relation appended by the relation fold has both endpoints drawn
from the chunk-local map, hence from merged entity ids. -/
theorem relFold_endpoints (lm : List (List Char × List Char)) :
    ∀ (rl : List ERelation) (st : MergeState),
    (∀ p ∈ lm, ∃ g ∈ st.combined_entities, g.id = p.2) →
    (∀ rel ∈ st.combined_relations,
      (∃ g ∈ st.combined_entities, g.id = rel.fromId) ∧
      (∃ g ∈ st.combined_entities, g.id = rel.toId)) →
    ∀ rel ∈ (rl.foldl (stepRelation lm) st).combined_relations,
      (∃ g ∈ (rl.foldl (stepRelation lm) st).combined_entities, g.id = rel.fromId) ∧
      (∃ g ∈ (rl.foldl (stepRelation lm) st).combined_entities, g.id = rel.toId) := by
  intro rl
  induction rl with
  | nil => intro st _ h2; exact h2
  | cons r rest ih =>
    intro st h1 h2
    rw [List.foldl_cons]
    have hent : (stepRelation lm st r).combined_entities = st.combined_entities :=
      stepRelation_entities lm st r
    refine ih (stepRelation lm st r) (by rw [hent]; exact h1) ?_
    intro rel hrel
    unfold stepRelation at hrel ⊢
    by_cases hg : (truthy (alookup lm (pyStr r.fromId)) &&
        truthy (alookup lm (pyStr r.toId))) = true
    · rw [if_pos hg] at hrel ⊢
      simp only [List.mem_append, List.mem_singleton] at hrel
      rcases hrel with hrel | hrel
      · exact h2 rel hrel
      · subst hrel
        rcases (Bool.and_eq_true _ _).mp hg with ⟨hsrc, hdst⟩
        rcases truthy_eq_true hsrc with ⟨vs, hvs, _⟩
        rcases truthy_eq_true hdst with ⟨vd, hvd, _⟩
        constructor
        · rcases h1 (pyStr r.fromId, vs) (alookup_mem_pair hvs) with ⟨g, hg2, hgid⟩
          exact ⟨g, hg2, by rw [hgid, hvs]; rfl⟩
        · rcases h1 (pyStr r.toId, vd) (alookup_mem_pair hvd) with ⟨g, hg2, hgid⟩
          exact ⟨g, hg2, by rw [hgid, hvd]; rfl⟩
    · rw [if_neg hg] at hrel ⊢
      exact h2 rel hrel

theorem processChunk_endpoints (i : Nat) (st : MergeState) (cr : ChunkResult)
    (h1 : ∀ p ∈ st.canonical_to_id, ∃ g ∈ st.combined_entities, g.id = p.2)
    (h2 : ∀ rel ∈ st.combined_relations,
      (∃ g ∈ st.combined_entities, g.id = rel.fromId) ∧
      (∃ g ∈ st.combined_entities, g.id = rel.toId)) :
    ((∀ p ∈ (processChunk i st cr).canonical_to_id,
        ∃ g ∈ (processChunk i st cr).combined_entities, g.id = p.2) ∧
     (∀ rel ∈ (processChunk i st cr).combined_relations,
        (∃ g ∈ (processChunk i st cr).combined_entities, g.id = rel.fromId) ∧
        (∃ g ∈ (processChunk i st cr).combined_entities, g.id = rel.toId))) := by
  unfold processChunk
  rcases entFold_endpoints i cr.entities
      { st with first_title := if truthy st.first_title then st.first_title else cr.title }
      [] h1 (by intro p hp; exact absurd hp (List.not_mem_nil p)) with ⟨c1, c2, c3, c4⟩
  rcases relFold_entities
      ((cr.entities.foldl (stepEntity i)
        ({ st with first_title := if truthy st.first_title then st.first_title else cr.title }, [])).2)
      cr.relations
      ((cr.entities.foldl (stepEntity i)
        ({ st with first_title := if truthy st.first_title then st.first_title else cr.title }, [])).1)
    with ⟨r1, r2, _⟩
  constructor
  · intro p hp
    rw [r2] at hp
    rcases c1 p hp with ⟨g, hg, hgid⟩
    exact ⟨g, by rw [r1]; exact hg, hgid⟩
  · refine relFold_endpoints _ cr.relations _ c2 ?_
    intro rel hrel
    rw [c4] at hrel
    rcases h2 rel hrel with ⟨⟨g1, hg1, hid1⟩, ⟨g2, hg2, hid2⟩⟩
    exact ⟨⟨g1, c3 g1 hg1, hid1⟩, ⟨g2, c3 g2 hg2, hid2⟩⟩

theorem mergeAux_endpoints : ∀ (rs : List ChunkResult) (i : Nat) (st : MergeState),
    (∀ p ∈ st.canonical_to_id, ∃ g ∈ st.combined_entities, g.id = p.2) →
    (∀ rel ∈ st.combined_relations,
      (∃ g ∈ st.combined_entities, g.id = rel.fromId) ∧
      (∃ g ∈ st.combined_entities, g.id = rel.toId)) →
    ∀ rel ∈ (mergeAux i st rs).combined_relations,
      (∃ g ∈ (mergeAux i st rs).combined_entities, g.id = rel.fromId) ∧
      (∃ g ∈ (mergeAux i st rs).combined_entities, g.id = rel.toId) := by
  intro rs
  induction rs with
  | nil => intro i st _ h2; exact h2
  | cons cr rest ih =>
    intro i st h1 h2
    rw [mergeAux]
    rcases processChunk_endpoints i st cr h1 h2 with ⟨p1, p2⟩
    exact ih (i + 1) (processChunk i st cr) p1 p2

theorem entFold_lm_keys (i : Nat) : ∀ (es : List EEntity) (st : MergeState)
    (lm : List (List Char × List Char)) (k : List Char),
    alookup lm k = none → (∀ e ∈ es, pyStr e.id ≠ k) →
    alookup ((es.foldl (stepEntity i) (st, lm)).2) k = none := by
  intro es
  induction es with
  | nil => intro st lm k h1 _; exact h1
  | cons e rest ih =>
    intro st lm k h1 h2
    rw [List.foldl_cons]
    have hne : pyStr e.id ≠ k := h2 e (List.mem_cons_self e rest)
    have hrest : ∀ e' ∈ rest, pyStr e'.id ≠ k :=
      fun e' he' => h2 e' (List.mem_cons_of_mem e he')
    rcases stepEntity_cases i st lm e with ⟨_, hst⟩ | ⟨cid, _, _, hst⟩ | ⟨_, _, hst⟩
    · rw [hst]
      exact ih st lm k h1 hrest
    · rw [hst]
      refine ih st _ k ?_ hrest
      rw [alookup, if_neg hne]
      exact h1
    · rw [hst]
      refine ih _ _ k ?_ hrest
      rw [alookup, if_neg hne]
      exact h1

theorem stepRelation_skip_from (lm : List (List Char × List Char)) (st : MergeState)
    (r : ERelation) (h : alookup lm (pyStr r.fromId) = none) :
    stepRelation lm st r = st := by
  unfold stepRelation
  rw [h]
  rw [if_neg]
  simp [truthy]

theorem stepRelation_skip_to (lm : List (List Char × List Char)) (st : MergeState)
    (r : ERelation) (h : alookup lm (pyStr r.toId) = none) :
    stepRelation lm st r = st := by
  unfold stepRelation
  rw [h]
  rw [if_neg]
  simp [truthy]

theorem relFold_erase (lm : List (List Char × List Char)) (rpre rpost : List ERelation)
    (r : ERelation) (st : MergeState) (hskip : ∀ st', stepRelation lm st' r = st') :
    (rpre ++ r :: rpost).foldl (stepRelation lm) st =
      (rpre ++ rpost).foldl (stepRelation lm) st := by
  rw [List.foldl_append, List.foldl_append, List.foldl_cons, hskip]

theorem processChunk_erase (i : Nat) (st : MergeState) (cr : ChunkResult)
    (rpre rpost : List ERelation) (r : ERelation)
    (hsplit : cr.relations = rpre ++ r :: rpost)
    (hmiss : (∀ e ∈ cr.entities, pyStr e.id ≠ pyStr r.fromId) ∨
             (∀ e ∈ cr.entities, pyStr e.id ≠ pyStr r.toId)) :
    processChunk i st { cr with relations := rpre ++ rpost } = processChunk i st cr := by
  unfold processChunk
  rw [hsplit]
  dsimp only
  have hlmnone :
      (alookup ((cr.entities.foldl (stepEntity i)
        ({ st with first_title := if truthy st.first_title then st.first_title else cr.title },
          [])).2) (pyStr r.fromId) = none) ∨
      (alookup ((cr.entities.foldl (stepEntity i)
        ({ st with first_title := if truthy st.first_title then st.first_title else cr.title },
          [])).2) (pyStr r.toId) = none) := by
    rcases hmiss with hmiss | hmiss
    · exact Or.inl (entFold_lm_keys i cr.entities _ [] _ rfl hmiss)
    · exact Or.inr (entFold_lm_keys i cr.entities _ [] _ rfl hmiss)
  have hskip : ∀ st', stepRelation
      ((cr.entities.foldl (stepEntity i)
        ({ st with first_title := if truthy st.first_title then st.first_title else cr.title },
          [])).2) st' r = st' := by
    intro st'
    rcases hlmnone with h | h
    · exact stepRelation_skip_from _ st' r h
    · exact stepRelation_skip_to _ st' r h
  exact (relFold_erase _ rpre rpost r _ hskip).symm

theorem mergeAux_append : ∀ (xs ys : List ChunkResult) (i : Nat) (st : MergeState),
    mergeAux i st (xs ++ ys) = mergeAux (i + xs.length) (mergeAux i st xs) ys := by
  intro xs
  induction xs with
  | nil => intro ys i st; simp [mergeAux]
  | cons cr rest ih =>
    intro ys i st
    rw [List.cons_append, mergeAux, mergeAux, ih]
    congr 1
    simp
    omega

/-- Claim C4: every relation in the merged output has both endpoints equal
to the id of some entity in the output entity list; and a relation whose
`from` (or `to`) local id matches no entity of its own chunk is silently
dropped — removing it from the input changes nothing in the merged
output. -/
theorem merge_relations_spec :
    (∀ rs : List ChunkResult, ∀ rel ∈ (mergeResults rs).relations,
      (∃ g ∈ (mergeResults rs).entities, g.id = rel.fromId) ∧
      (∃ g ∈ (mergeResults rs).entities, g.id = rel.toId)) ∧
    (∀ (cpre cpost : List ChunkResult) (cr : ChunkResult)
      (rpre rpost : List ERelation) (r : ERelation),
      cr.relations = rpre ++ r :: rpost →
      ((∀ e ∈ cr.entities, pyStr e.id ≠ pyStr r.fromId) ∨
       (∀ e ∈ cr.entities, pyStr e.id ≠ pyStr r.toId)) →
      mergeResults (cpre ++ { cr with relations := rpre ++ rpost } :: cpost) =
        mergeResults (cpre ++ cr :: cpost)) := by
  constructor
  · intro rs rel hrel
    have he : (mergeResults rs).entities = (mergeAux 0 initMergeState rs).combined_entities := rfl
    have hr : (mergeResults rs).relations = (mergeAux 0 initMergeState rs).combined_relations := rfl
    rw [hr] at hrel
    rw [he]
    exact mergeAux_endpoints rs 0 initMergeState
      (by intro p hp; exact absurd hp (List.not_mem_nil p))
      (by intro rel2 hrel2; exact absurd hrel2 (List.not_mem_nil rel2)) rel hrel
  · intro cpre cpost cr rpre rpost r hsplit hmiss
    unfold mergeResults
    rw [mergeAux_append, mergeAux_append, mergeAux, mergeAux,
      processChunk_erase _ _ cr rpre rpost r hsplit hmiss]

/-- Witness for C4: a resolvable relation in a one-chunk input has both of
its endpoints among the merged entity ids, and dropping a dangling
relation (whose endpoints match no entity) leaves the output unchanged. -/
theorem merge_relations_spec_witness :
    ((∃ g ∈ (mergeResults [⟨none,
        [⟨some [ 'E', '1'], none, none, some [ 'a']⟩,
         ⟨some [ 'E', '2'], none, none, some [ 'b']⟩],
        [⟨some [ 'E', '1'], some [ 'E', '2'], none, none, none⟩]⟩]).entities,
      g.id = [ 'c', '0', '_', 'E', '1']) ∧
     (∃ g ∈ (mergeResults [⟨none,
        [⟨some [ 'E', '1'], none, none, some [ 'a']⟩,
         ⟨some [ 'E', '2'], none, none, some [ 'b']⟩],
        [⟨some [ 'E', '1'], some [ 'E', '2'], none, none, none⟩]⟩]).entities,
      g.id = [ 'c', '0', '_', 'E', '2'])) ∧
    mergeResults [⟨none, [], []⟩] =
      mergeResults [⟨none, [], [⟨some [ 'E', '9'], some [ 'E', '9'], none, none, none⟩]⟩] := by
  constructor
  · exact merge_relations_spec.1
      [⟨none,
        [⟨some [ 'E', '1'], none, none, some [ 'a']⟩,
         ⟨some [ 'E', '2'], none, none, some [ 'b']⟩],
        [⟨some [ 'E', '1'], some [ 'E', '2'], none, none, none⟩]⟩]
      ⟨[ 'c', '0', '_', 'E', '1'], [ 'c', '0', '_', 'E', '2'],
        [ 'r', 'e', 'l', 'a', 't', 'e', 'd'], 0, []⟩ (by decide)
  · exact merge_relations_spec.2 [] [] ⟨none, [], [⟨some [ 'E', '9'], some [ 'E', '9'], none, none, none⟩]⟩
      [] [] ⟨some [ 'E', '9'], some [ 'E', '9'], none, none, none⟩ rfl
      (Or.inl (fun e he => absurd he (List.not_mem_nil e)))

/-- JSON values, as returned by Python `json.loads`. -/
inductive JVal where
  | jnull : JVal
  | jbool : Bool → JVal
  | jnum : ℚ → JVal
  | jstr : List Char → JVal
  | jarr : List JVal → JVal
  | jobj : List (List Char × JVal) → JVal

/-- The empty result `{"entities": [], "relations": []}` returned by
`safe_parse_json` on any failure (src/backend/ernie.py lines 55-56). -/
def emptyResult : JVal :=
  .jobj [([ 'e', 'n', 't', 'i', 't', 'i', 'e', 's'], .jarr []),
         ([ 'r', 'e', 'l', 'a', 't', 'i', 'o', 'n', 's'], .jarr [])]

/-- The start of the match of `re.search(r"\{.*\}", raw, re.DOTALL)`: the
least position holding an opening brace with some closing brace strictly
after it. -/
def spanStart (raw : List Char) : Option Nat :=
  (List.range raw.length).find? (fun i =>
    raw.getD i ' ' == '\x7b' &&
      (List.range raw.length).any (fun j => decide (i < j) && (raw.getD j ' ' == '\x7d')))

/-- The span selected by `re.search(r"\{.*\}", raw, re.DOTALL)`: from the
first qualifying opening brace to the last closing brace (greedy `.*` under
DOTALL). -/
def findSpan (raw : List Char) : Option (List Char) :=
  match spanStart raw with
  | none => none
  | some i =>
    match rfindChar '\x7d' raw with
    | some j => some ((raw.drop i).take (j - i + 1))
    | none => none

/-- Model of `safe_parse_json` (src/backend/ernie.py lines 48-56), with `json.loads`
abstracted as the partial function `loads` (`none` models
`json.JSONDecodeError`). -/
def safe_parse_json (loads : List Char → Option JVal) (raw : List Char) : JVal :=
  match findSpan raw with
  | none => emptyResult
  | some s =>
    match loads s with
    | some v => v
    | none => emptyResult

/-- Claim C8: if the response contains no `{...}` span, or decoding the
selected span fails, `safe_parse_json` returns the empty result
`{"entities": [], "relations": []}` (it is a total function — a bad chunk
degrades to no contribution rather than an exception). -/
theorem safe_parse_json_spec (loads : List Char → Option JVal) (raw : List Char) :
    ((¬ ∃ i j : Fin raw.length, (i : Nat) < (j : Nat) ∧
        raw.get i = '\x7b' ∧ raw.get j = '\x7d') →
      safe_parse_json loads raw = emptyResult) ∧
    (∀ s, findSpan raw = some s → loads s = none →
      safe_parse_json loads raw = emptyResult) := by
  constructor
  · intro hno
    have hstart : spanStart raw = none := by
      cases hs : spanStart raw with
      | none => rfl
      | some i =>
        exfalso
        have hpred := List.find?_some hs
        have hmem := List.mem_of_find?_eq_some hs
        rw [List.mem_range] at hmem
        rcases Bool.and_eq_true _ _ |>.mp hpred with ⟨hopen, hany⟩
        rw [List.any_eq_true] at hany
        rcases hany with ⟨j, hj, hjp⟩
        rw [List.mem_range] at hj
        rcases Bool.and_eq_true _ _ |>.mp hjp with ⟨hij, hclose⟩
        have hij' : i < j := of_decide_eq_true hij
        have hopen' : raw.getD i ' ' = '\x7b' := by
          have := of_decide_eq_true hopen
          exact this
        have hclose' : raw.getD j ' ' = '\x7d' := by
          have := of_decide_eq_true hclose
          exact this
        rw [List.getD_eq_getElem raw ' ' hmem] at hopen'
        rw [List.getD_eq_getElem raw ' ' hj] at hclose'
        exact hno ⟨⟨i, hmem⟩, ⟨j, hj⟩, hij',
          by rw [List.get_eq_getElem]; exact hopen',
          by rw [List.get_eq_getElem]; exact hclose'⟩
    unfold safe_parse_json findSpan
    rw [hstart]
  · intro s hs hl
    unfold safe_parse_json
    split
    · rfl
    next s2 hs2 =>
      have hseq : s2 = s := by
        rw [hs] at hs2
        exact (Option.some.inj hs2).symm
      have hl2 : loads s2 = none := by
        rw [hseq]
        exact hl
      split
      next v hv =>
        rw [hl2] at hv
        exact Option.noConfusion hv
      next => rfl

/-- Witness for C8: a brace-free response returns the empty result, and so
does a braced span whose decode fails. -/
theorem safe_parse_json_spec_witness :
    ((¬ ∃ i j : Fin ([ 'n', 'o', ' ', 'j', 's', 'o', 'n'] : List Char).length,
        (i : Nat) < (j : Nat) ∧
        [ 'n', 'o', ' ', 'j', 's', 'o', 'n'].get i = '\x7b' ∧
        [ 'n', 'o', ' ', 'j', 's', 'o', 'n'].get j = '\x7d') ∧
      safe_parse_json (fun _ => none) [ 'n', 'o', ' ', 'j', 's', 'o', 'n'] = emptyResult) ∧
    (findSpan [ '\x7b', 'x', '\x7d'] = some [ '\x7b', 'x', '\x7d'] ∧
      safe_parse_json (fun _ => none) [ '\x7b', 'x', '\x7d'] = emptyResult) :=
  ⟨⟨by decide, (safe_parse_json_spec (fun _ => none) _).1 (by decide)⟩,
   ⟨by decide, (safe_parse_json_spec (fun _ => none) _).2 [ '\x7b', 'x', '\x7d']
      (by decide) rfl⟩⟩

/-- The candidate tried by `_unique_db_name` for suffix index `idx`:
`f"{base_name}-{idx}"[:60]` (src/backend/graph.py lines 72-73). -/
def uniqueCandidate (base : List Char) (idx : Nat) : List Char :=
  (base ++ '-' :: natChars idx).take 60

/-- The `while True` loop of `_unique_db_name` (src/backend/graph.py lines
70-76), with explicit fuel; `none` models non-termination within the given
fuel. -/
def uniqueAux (existing : List (List Char)) (base : List Char) : Nat → Nat → Option (List Char)
  | _, 0 => none
  | idx, fuel + 1 =>
    if uniqueCandidate base idx ∈ existing then uniqueAux existing base (idx + 1) fuel
    else some (uniqueCandidate base idx)

/-- Model of `_unique_db_name` (src/backend/graph.py lines 51-76) on the successful
`SHOW DATABASES` path: `existing` is the set of database names the system
session reports.  (On a `SHOW DATABASES` failure the source returns
`base_name` unchanged; that exception path is outside this model.) -/
def _unique_db_name (existing : List (List Char)) (base_name : List Char)
    (fuel : Nat) : Option (List Char) :=
  if base_name ∈ existing then uniqueAux existing base_name 2 fuel
  else some base_name

theorem uniqueCandidate_const (idx : Nat) :
    uniqueCandidate (List.replicate 60 'a') idx = List.replicate 60 'a' := by
  unfold uniqueCandidate
  have h := List.take_left (List.replicate 60 'a') ( '-' :: natChars idx)
  simp only [List.length_replicate] at h
  exact h

theorem uniqueAux_stuck : ∀ (fuel idx : Nat),
    uniqueAux [List.replicate 60 'a'] (List.replicate 60 'a') idx fuel = none := by
  intro fuel
  induction fuel with
  | zero => intro idx; rfl
  | succ f ih =>
    intro idx
    rw [uniqueAux, if_pos]
    · exact ih (idx + 1)
    · rw [uniqueCandidate_const idx]
      exact List.mem_singleton.mpr rfl

/-- Claim C5 counterexample: for the 60-character base name `"aaa...a"`
already present among the existing names, every candidate re-truncates to
the base itself, so the loop never finds an unused name — the function does
not terminate (no fuel suffices), contradicting the claim that it
terminates for every base name and finite existing set. -/
theorem unique_db_name_cex :
    ¬ ∃ (fuel : Nat) (c : List Char),
      _unique_db_name [List.replicate 60 'a'] (List.replicate 60 'a') fuel = some c := by
  rintro ⟨fuel, c, hc⟩
  unfold _unique_db_name at hc
  rw [if_pos (List.mem_singleton.mpr rfl), uniqueAux_stuck] at hc
  exact Option.noConfusion hc

theorem uniqueAux_first (existing : List (List Char)) (base : List Char) :
    ∀ (k idx : Nat), uniqueCandidate base (idx + k) ∉ existing →
    ∃ m, m ≤ k ∧
      uniqueAux existing base idx (k + 1) = some (uniqueCandidate base (idx + m)) ∧
      uniqueCandidate base (idx + m) ∉ existing ∧
      ∀ m' < m, uniqueCandidate base (idx + m') ∈ existing := by
  intro k
  induction k with
  | zero =>
    intro idx hfree
    refine ⟨0, le_rfl, ?_, hfree, by omega⟩
    rw [uniqueAux, if_neg (by simpa using hfree)]
    simp
  | succ k ih =>
    intro idx hfree
    by_cases hc : uniqueCandidate base idx ∈ existing
    · have hfree' : uniqueCandidate base ((idx + 1) + k) ∉ existing := by
        have : (idx + 1) + k = idx + (k + 1) := by omega
        rw [this]
        exact hfree
      rcases ih (idx + 1) hfree' with ⟨m, hm, heq, hfm, hprev⟩
      refine ⟨m + 1, by omega, ?_, ?_, ?_⟩
      · rw [uniqueAux, if_pos hc]
        have : idx + (m + 1) = (idx + 1) + m := by omega
        rw [this]
        exact heq
      · have : idx + (m + 1) = (idx + 1) + m := by omega
        rw [this]
        exact hfm
      · intro m' hm'
        cases m' with
        | zero => simpa using hc
        | succ m'' =>
          have : idx + (m'' + 1) = (idx + 1) + m'' := by omega
          rw [this]
          exact hprev m'' (by omega)
    · refine ⟨0, by omega, ?_, ?_, by omega⟩
      · rw [uniqueAux, if_neg]
        · rfl
        · simpa using hc
      · simpa using hc

/-- Claim C5 amended: `_unique_db_name` returns the base name unchanged
when it is free; when the base is taken, the loop finds (within fuel
`k + 1`) the first candidate `base-idx` (idx = 2, 3, ..., each re-truncated
to 60 characters) that is unused — provided some candidate is unused at
all.  When truncation collapses every candidate into a taken name (e.g. a
60-character base already present), the loop never terminates, as the
counterexample above shows. -/
theorem unique_db_name_spec (existing : List (List Char)) (base : List Char) (k : Nat)
    (hfree : uniqueCandidate base (2 + k) ∉ existing) :
    (base ∉ existing → _unique_db_name existing base (k + 1) = some base) ∧
    (base ∈ existing → ∃ m, m ≤ k ∧
      _unique_db_name existing base (k + 1) = some (uniqueCandidate base (2 + m)) ∧
      uniqueCandidate base (2 + m) ∉ existing ∧
      ∀ m' < m, uniqueCandidate base (2 + m') ∈ existing) := by
  constructor
  · intro hb
    unfold _unique_db_name
    rw [if_neg hb]
  · intro hb
    rcases uniqueAux_first existing base k 2 hfree with ⟨m, hm, heq, hfm, hprev⟩
    refine ⟨m, hm, ?_, hfm, hprev⟩
    unfold _unique_db_name
    rw [if_pos hb]
    exact heq

/-- Witness for the amended C5: with `existing = ["a"]` and `base = "a"`,
the first candidate `"a-2"` is free and is returned; and a free base is
returned unchanged. -/
theorem unique_db_name_spec_witness :
    (uniqueCandidate [ 'a'] (2 + 0) ∉ [[ 'a']] ∧
      _unique_db_name [[ 'a']] [ 'a'] 1 = some [ 'a', '-', '2']) ∧
    _unique_db_name [[ 'a']] [ 'b'] 1 = some [ 'b'] := by
  refine ⟨⟨by decide, ?_⟩, ?_⟩
  · have h := (unique_db_name_spec [[ 'a']] [ 'a'] 0 (by decide)).2 (by decide)
    rcases h with ⟨m, hm, heq, _, _⟩
    have hm0 : m = 0 := by omega
    subst hm0
    rw [heq]
    rfl
  · exact (unique_db_name_spec [[ 'a']] [ 'b'] 0 (by decide)).1 (by decide)

/-- Python `c.isalnum()` restricted to ASCII — which is exactly the
character class `[a-zA-Z0-9]` of the `re.split` pattern in
`_safe_db_name`. -/
def isAlnum (c : Char) : Bool :=
  c.isAlpha || c.isDigit

/-- Python `str.capitalize()`: first character upper-cased, the rest
lower-cased (ASCII). -/
def capitalize (w : List Char) : List Char :=
  match w with
  | [] => []
  | c :: cs => Char.toUpper c :: cs.map Char.toLower

/-- Model of `_safe_db_name` (src/backend/graph.py lines 27-49). -/
def _safe_db_name (title : List Char) : List Char :=
  let t := if title = [] then [ 'g', 'r', 'a', 'p', 'h'] else title
  let words := (List.splitOnP (fun c => !(isAlnum c)) t).filter (fun w => w ≠ [])
  let name := (words.map capitalize).flatten
  let name2 :=
    if name = [] then [ 'G', 'D', 'e', 'f', 'a', 'u', 'l', 't']
    else if !(name.headD ' ').isAlpha then 'G' :: name
    else name
  name2.take 60

/-- A Neo4j `Entity` node: `MERGE (ent:Entity {canonical: ..}) ON CREATE
SET ent.type, ent.text` (src/backend/graph.py lines 80-90). -/
structure NeoNode where
  canonical : List Char
  ntype : List Char
  text : List Char
deriving DecidableEq

/-- A Neo4j `RELATION` edge keyed by (from, to, type), with first-seen
confidence/evidence (src/backend/graph.py lines 100-112). -/
structure NeoEdge where
  fromC : List Char
  toC : List Char
  rtype : List Char
  confidence : ℚ
  evidence : List Char
deriving DecidableEq

/-- The content of one Neo4j database. -/
structure DbContent where
  nodes : List NeoNode
  edges : List NeoEdge
deriving DecidableEq

/-- The whole Neo4j instance: named databases and their contents. -/
abbrev Store : Type := List (List Char × DbContent)

/-- Update the content of the named database (no-op when absent). -/
def storeUpdate (s : Store) (name : List Char) (f : DbContent → DbContent) : Store :=
  match s with
  | [] => []
  | (n, c) :: rest =>
    if n = name then (n, f c) :: rest else (n, c) :: storeUpdate rest name f

def neo4jName : List Char := [ 'n', 'e', 'o', '4', 'j']

/-- Model of `create_entities` (src/backend/graph.py lines 80-90): `MERGE` on
canonical — create the node on first sight, leave attributes alone on
repeats. -/
def create_entities (c : DbContent) (entities : List GEntity) : DbContent :=
  entities.foldl
    (fun c e =>
      if c.nodes.any (fun nd => nd.canonical = e.canonical) then c
      else { c with nodes := c.nodes ++ [⟨e.canonical, e.etype, e.text⟩] })
    c

/-- Model of `create_relations` (src/backend/graph.py lines 93-112): endpoints are
resolved through `{e.id: e.canonical}` (later entries overwrite earlier
ones, modelled by reversing before `alookup`); falsy endpoints skip; the
`MATCH`es require both nodes; `MERGE` keys the edge by (from, to, type)
with first-seen confidence/evidence. -/
def create_relations (c : DbContent) (relations : List GRelation)
    (entities : List GEntity) : DbContent :=
  let entity_map := (entities.map (fun e => (e.id, e.canonical))).reverse
  relations.foldl
    (fun c r =>
      let from_canonical := alookup entity_map r.fromId
      let to_canonical := alookup entity_map r.toId
      if truthy from_canonical && truthy to_canonical then
        if c.nodes.any (fun nd => nd.canonical = from_canonical.getD []) &&
           c.nodes.any (fun nd => nd.canonical = to_canonical.getD []) then
          if c.edges.any (fun ed => ed.fromC = from_canonical.getD [] &&
              ed.toC = to_canonical.getD [] && ed.rtype = r.rtype) then c
          else { c with edges := c.edges ++
            [⟨from_canonical.getD [], to_canonical.getD [], r.rtype,
              r.confidence, r.evidence_span⟩] }
        else c
      else c)
    c

/-- Model of `_clear_neo4j_database` (src/backend/graph.py lines 114-120):
`MATCH (n) DETACH DELETE n` against the default database `neo4j`. -/
def _clear_neo4j_database (s : Store) : Store :=
  storeUpdate s neo4jName (fun _ => ⟨[], []⟩)

/-- Model of `CREATE DATABASE .. IF NOT EXISTS` (src/backend/graph.py line 138). -/
def ensure_database (s : Store) (name : List Char) : Store :=
  if name ∈ s.map Prod.fst then s else s ++ [(name, ⟨[], []⟩)]

/-- Model of `process_text_to_graph` (src/backend/graph.py lines 124-156) as a store
transformer.  `createOk` selects the success path of the `CREATE DATABASE`
block versus its exception fallback to the default database; `fuel` bounds
the `_unique_db_name` loop (`none` models its non-termination); the
verification read-back query performs no writes. -/
def process_text_to_graph (fuel : Nat) (createOk : Bool) (result : Output)
    (s : Store) : Option ((List Char) × Store) :=
  let base_name := _safe_db_name result.title
  match _unique_db_name (s.map Prod.fst) base_name fuel with
  | none => none
  | some db_name =>
    let s1 := _clear_neo4j_database s
    if createOk then
      some (db_name, storeUpdate (ensure_database s1 db_name) db_name
        (fun c => create_relations (create_entities c result.entities)
          result.relations result.entities))
    else
      some (neo4jName, storeUpdate s1 neo4jName
        (fun c => create_relations (create_entities c result.entities)
          result.relations result.entities))

theorem alookup_storeUpdate_ne (name n : List Char) (f : DbContent → DbContent) :
    ∀ s : Store, name ≠ n → alookup (storeUpdate s n f) name = alookup s name := by
  intro s
  induction s with
  | nil => intro _; rfl
  | cons p rest ih =>
    intro hne
    cases p with
    | mk n0 c0 =>
      rw [storeUpdate]
      by_cases h0 : n0 = n
      · rw [if_pos h0]
        rw [alookup, alookup]
        have : ¬ n0 = name := by
          rw [h0]
          intro hc
          exact hne hc.symm
        rw [if_neg this, if_neg this]
      · rw [if_neg h0]
        rw [alookup, alookup]
        by_cases h1 : n0 = name
        · rw [if_pos h1, if_pos h1]
        · rw [if_neg h1, if_neg h1]
          exact ih hne

theorem alookup_storeUpdate_eq (n : List Char) (f : DbContent → DbContent) :
    ∀ s : Store, alookup (storeUpdate s n f) n = Option.map f (alookup s n) := by
  intro s
  induction s with
  | nil => rfl
  | cons p rest ih =>
    cases p with
    | mk n0 c0 =>
      rw [storeUpdate]
      by_cases h0 : n0 = n
      · rw [if_pos h0, alookup, alookup, if_pos h0, if_pos h0]
        rfl
      · rw [if_neg h0, alookup, alookup, if_neg h0, if_neg h0]
        exact ih

theorem alookup_append {α : Type} : ∀ (l1 l2 : List (List Char × α)) (k : List Char),
    alookup (l1 ++ l2) k =
      match alookup l1 k with
      | some v => some v
      | none => alookup l2 k := by
  intro l1
  induction l1 with
  | nil => intro l2 k; rfl
  | cons p rest ih =>
    intro l2 k
    cases p with
    | mk k0 v0 =>
      rw [List.cons_append, alookup, alookup]
      by_cases h0 : k0 = k
      · rw [if_pos h0, if_pos h0]
      · rw [if_neg h0, if_neg h0]
        exact ih l2 k

theorem alookup_ensure_ne (s : Store) (db name : List Char) (hne : name ≠ db) :
    alookup (ensure_database s db) name = alookup s name := by
  unfold ensure_database
  by_cases h : db ∈ s.map Prod.fst
  · rw [if_pos h]
  · rw [if_neg h, alookup_append]
    cases hl : alookup s name with
    | some v => rfl
    | none =>
      simp only []
      rw [alookup, if_neg (fun hc => hne hc.symm)]
      rfl

/-- Claim C6 counterexample: a plain document-processing run (no explicit
reset anywhere in sight) empties the default `neo4j` database: starting
from a store whose default database holds one node, `process_text_to_graph`
returns with the default database's content cleared. -/
theorem process_text_to_graph_cex :
    process_text_to_graph 1 true ⟨[ 'g', 'r', 'a', 'p', 'h'], [], []⟩
        [(neo4jName, ⟨[⟨[ 'x'], [ 'T'], [ 'x']⟩], []⟩)] =
      some ([ 'G', 'r', 'a', 'p', 'h'],
        [(neo4jName, ⟨[], []⟩), ([ 'G', 'r', 'a', 'p', 'h'], ⟨[], []⟩)]) ∧
    alookup [(neo4jName, (⟨[⟨[ 'x'], [ 'T'], [ 'x']⟩], []⟩ : DbContent))] neo4jName =
      some ⟨[⟨[ 'x'], [ 'T'], [ 'x']⟩], []⟩ ∧
    alookup [(neo4jName, (⟨[], []⟩ : DbContent)),
        ([ 'G', 'r', 'a', 'p', 'h'], (⟨[], []⟩ : DbContent))] neo4jName = some ⟨[], []⟩ := by
  refine ⟨?_, by decide, by decide⟩
  decide

/-- Claim C6 amended: a document-processing run touches only the target
namespace and the default namespace: every other namespace keeps its exact
content; the default namespace `neo4j` is cleared by every run (the source
calls `_clear_neo4j_database()` unconditionally before provisioning), not
only by an explicit reset. -/
theorem process_text_to_graph_frame (fuel : Nat) (ok : Bool) (result : Output)
    (s : Store) (nm : List Char) (s2 : Store)
    (h : process_text_to_graph fuel ok result s = some (nm, s2)) :
    (∀ name, name ≠ nm → name ≠ neo4jName → alookup s2 name = alookup s name) ∧
    (nm ≠ neo4jName → ∀ c0, alookup s neo4jName = some c0 →
      alookup s2 neo4jName = some ⟨[], []⟩) := by
  unfold process_text_to_graph at h
  dsimp only at h
  cases hdb : _unique_db_name (s.map Prod.fst) (_safe_db_name result.title) fuel with
  | none =>
    rw [hdb] at h
    exact Option.noConfusion h
  | some db_name =>
    rw [hdb] at h
    dsimp only at h
    cases ok with
    | true =>
      rw [if_pos rfl] at h
      have hpair := Option.some.inj h
      have hnm : db_name = nm := congrArg Prod.fst hpair
      have hs2 : s2 = storeUpdate (ensure_database (_clear_neo4j_database s) db_name) db_name
          (fun c => create_relations (create_entities c result.entities)
            result.relations result.entities) := (congrArg Prod.snd hpair).symm
      subst hnm
      constructor
      · intro name hn1 hn2
        rw [hs2]
        rw [alookup_storeUpdate_ne name db_name _ _ hn1]
        rw [alookup_ensure_ne _ db_name name hn1]
        unfold _clear_neo4j_database
        rw [alookup_storeUpdate_ne name neo4jName _ _ hn2]
      · intro hnm c0 hc0
        rw [hs2]
        rw [alookup_storeUpdate_ne neo4jName db_name _ _ (fun hc => hnm hc.symm)]
        rw [alookup_ensure_ne _ db_name neo4jName (fun hc => hnm hc.symm)]
        unfold _clear_neo4j_database
        rw [alookup_storeUpdate_eq neo4jName _ _]
        rw [hc0]
        rfl
    | false =>
      rw [if_neg (by simp)] at h
      have hpair := Option.some.inj h
      have hnm : neo4jName = nm := congrArg Prod.fst hpair
      have hs2 : s2 = storeUpdate (_clear_neo4j_database s) neo4jName
          (fun c => create_relations (create_entities c result.entities)
            result.relations result.entities) := (congrArg Prod.snd hpair).symm
      constructor
      · intro name hn1 hn2
        rw [hs2]
        rw [alookup_storeUpdate_ne name neo4jName _ _ hn2]
        unfold _clear_neo4j_database
        rw [alookup_storeUpdate_ne name neo4jName _ _ hn2]
      · intro hcontra
        exact absurd hnm.symm hcontra

/-- Witness for the amended C6 at the concrete run of the counterexample
store extended with an unrelated namespace, which is left untouched while
the default one is cleared. -/
theorem process_text_to_graph_frame_witness :
    (∀ name, name ≠ [ 'G', 'r', 'a', 'p', 'h'] → name ≠ neo4jName →
      alookup ([(neo4jName, (⟨[], []⟩ : DbContent)),
          ([ 'o', 't', 'h'], (⟨[⟨[ 'y'], [ 'U'], [ 'y']⟩], []⟩ : DbContent)),
          ([ 'G', 'r', 'a', 'p', 'h'], (⟨[], []⟩ : DbContent))] : Store) name =
        alookup ([(neo4jName, (⟨[⟨[ 'x'], [ 'T'], [ 'x']⟩], []⟩ : DbContent)),
          ([ 'o', 't', 'h'], (⟨[⟨[ 'y'], [ 'U'], [ 'y']⟩], []⟩ : DbContent))] : Store) name) ∧
    ([ 'G', 'r', 'a', 'p', 'h'] ≠ neo4jName →
      ∀ c0, alookup ([(neo4jName, (⟨[⟨[ 'x'], [ 'T'], [ 'x']⟩], []⟩ : DbContent)),
          ([ 'o', 't', 'h'], (⟨[⟨[ 'y'], [ 'U'], [ 'y']⟩], []⟩ : DbContent))] : Store) neo4jName =
          some c0 →
        alookup ([(neo4jName, (⟨[], []⟩ : DbContent)),
          ([ 'o', 't', 'h'], (⟨[⟨[ 'y'], [ 'U'], [ 'y']⟩], []⟩ : DbContent)),
          ([ 'G', 'r', 'a', 'p', 'h'], (⟨[], []⟩ : DbContent))] : Store) neo4jName =
          some ⟨[], []⟩) :=
  process_text_to_graph_frame 1 true ⟨[ 'g', 'r', 'a', 'p', 'h'], [], []⟩
    [(neo4jName, ⟨[⟨[ 'x'], [ 'T'], [ 'x']⟩], []⟩),
     ([ 'o', 't', 'h'], ⟨[⟨[ 'y'], [ 'U'], [ 'y']⟩], []⟩)]
    [ 'G', 'r', 'a', 'p', 'h']
    [(neo4jName, ⟨[], []⟩),
     ([ 'o', 't', 'h'], ⟨[⟨[ 'y'], [ 'U'], [ 'y']⟩], []⟩),
     ([ 'G', 'r', 'a', 'p', 'h'], ⟨[], []⟩)]
    (by decide)
